import Mathlib

/-!
Verification of the task-calendar store implemented in `app.py`.

The program keeps all state in one Python dict
`st.session_state.tasks : dict[str, dict[str, dict]]` mapping a date string
`"YYYY-MM-DD"` to a bucket, itself a dict from task id to a task record.
Python dicts are insertion ordered with unique keys; we embed them as
association lists (`List (String × _)`) together with the operations
`lookupKey` (read), `setKey` (dict assignment: replace in place, or append
when the key is new) and `eraseKey` (del).

Effectful pieces are made explicit parameters:
* `datetime.now()` timestamps become `now : String` arguments;
* `uuid.uuid4()` becomes an id supply `ids : Nat → String`, consumed in
  order, with freshness stated as hypotheses where a theorem needs it;
* `datetime.now().date()` and its `strftime('%Y-%m-%d')` rendering become a
  pair `today : Date`, `today_str : String` with the hypothesis
  `parseDate today_str = some today` (the defining property of the
  canonical rendering that the code relies on);
* `save_tasks` / `st.success` / `st.error` are I/O and carry no store
  state; error reporting is reflected in explicit result values where the
  source reports one.
-/

namespace TaskCal

/-- A task record, as built by `add_task` (lines 105-111 of `app.py`):
keys `title`, `description`, `priority`, `completed`, `created_at`, with
`modified_at` added by `edit_task` and `moved_from` added by
`move_incomplete_tasks`.  Absent optional keys are `none`. -/
structure Task where
  title : String
  description : String
  priority : String
  completed : Bool
  created_at : String
  modified_at : Option String := none
  moved_from : Option String := none
deriving DecidableEq, Repr

/-! ### Python dict operations on association lists -/

/-- Dict read `l[k]`, returning `none` when the key is absent. -/
def lookupKey {α : Type} (k : String) : List (String × α) → Option α
  | [] => none
  | (k', v) :: rest => if k' = k then some v else lookupKey k rest

/-- Dict assignment `l[k] = v`: replace the value at `k` in place, or
append the binding when `k` is new. -/
def setKey {α : Type} (k : String) (v : α) : List (String × α) → List (String × α)
  | [] => [(k, v)]
  | (k', v') :: rest => if k' = k then (k, v) :: rest else (k', v') :: setKey k v rest

/-- Dict deletion `del l[k]` (no-op when the key is absent). -/
def eraseKey {α : Type} (k : String) : List (String × α) → List (String × α)
  | [] => []
  | (k', v') :: rest => if k' = k then rest else (k', v') :: eraseKey k rest

/-- Membership test `k in l`. -/
def hasKey {α : Type} (k : String) (l : List (String × α)) : Bool :=
  (lookupKey k l).isSome

/-- Keys of the dict are pairwise distinct (an intrinsic invariant of every
Python dict; association lists can violate it, so theorems assume it). -/
def keysNodup {α : Type} (l : List (String × α)) : Prop :=
  (l.map Prod.fst).Nodup

instance {α : Type} (l : List (String × α)) : Decidable (keysNodup l) := by
  unfold keysNodup; infer_instance

/-- A date bucket: task id to task record. -/
abbrev Bucket := List (String × Task)

/-- The store `st.session_state.tasks`: date string to bucket. -/
abbrev Store := List (String × Bucket)

/-- Task ids of every bucket of the store, used to state uuid freshness. -/
def allTaskIds (tasks : Store) : List String :=
  (tasks.map (fun p => p.2.map Prod.fst)).flatten

/-! ### Store operations (`app.py` lines 99-155) -/

/-- Function `add_task` (lines 99-112).  The fresh `uuid.uuid4()` and the
`datetime.now().isoformat()` timestamp are the explicit arguments
`task_id` and `now`.  Note the source performs no validation of `title`:
the empty-title check lives in the form handler (lines 550-557). -/
def add_task (tasks : Store) (date_str task_id title priority description now : String) : Store :=
  let bucket := (lookupKey date_str tasks).getD []
  let task : Task := { title := title, description := description, priority := priority, completed := false, created_at := now }
  setKey date_str (setKey task_id task bucket) tasks

/-- The add-task form handler (lines 550-557): `add_task` runs only when
the submitted title is truthy (non-empty); otherwise `st.error` fires and
the store is untouched.  The returned Bool records whether the error
message was shown. -/
def submit_add_task (tasks : Store) (date_str task_id title priority description now : String) :
    Store × Bool :=
  if title ≠ "" then (add_task tasks date_str task_id title priority description now, false)
  else (tasks, true)

/-- Function `toggle_task_completion` (lines 114-118): flip `completed` if
the task exists in that bucket, silently do nothing otherwise. -/
def toggle_task_completion (tasks : Store) (date_str task_id : String) : Store :=
  match lookupKey date_str tasks with
  | none => tasks
  | some bucket =>
    match lookupKey task_id bucket with
    | none => tasks
    | some task =>
      setKey date_str (setKey task_id { task with completed := !task.completed } bucket) tasks

/-- Function `delete_task` (lines 120-126): remove the task, then remove
the bucket when it became empty; silent no-op when absent. -/
def delete_task (tasks : Store) (date_str task_id : String) : Store :=
  match lookupKey date_str tasks with
  | none => tasks
  | some bucket =>
    match lookupKey task_id bucket with
    | none => tasks
    | some _ =>
      let b' := eraseKey task_id bucket
      if b'.isEmpty then eraseKey date_str tasks else setKey date_str b' tasks

/-- Function `edit_task` (lines 128-155).  When the task exists at
`old_date_str` it is updated (title, priority, description,
`modified_at := now`) and, when `new_date_str` differs, relocated: deleted
from the old bucket (dropping the bucket when emptied) and inserted under
`new_date_str` with the same id.  When the task is absent the function
silently returns without modifying anything — the source has no error
path. -/
def edit_task (tasks : Store) (old_date_str task_id new_date_str title priority description now : String) :
    Store :=
  match lookupKey old_date_str tasks with
  | none => tasks
  | some bucket =>
    match lookupKey task_id bucket with
    | none => tasks
    | some task0 =>
      let task : Task := { task0 with
        title := title
        priority := priority
        description := description
        modified_at := some now }
      if old_date_str ≠ new_date_str then
        let b' := eraseKey task_id bucket
        let tasks1 := if b'.isEmpty then eraseKey old_date_str tasks
                      else setKey old_date_str b' tasks
        let nb := (lookupKey new_date_str tasks1).getD []
        setKey new_date_str (setKey task_id task nb) tasks1
      else
        setKey old_date_str (setKey task_id task bucket) tasks

/-- Convenience: read the task `task_id` inside the bucket of `date_str`. -/
def lookupTask (tasks : Store) (date_str task_id : String) : Option Task :=
  (lookupKey date_str tasks).bind (lookupKey task_id)

/-! ### Dates: `datetime.strptime(s, '%Y-%m-%d').date()` and `<` -/

/-- A calendar date as produced by `datetime.date`. -/
structure Date where
  year : Nat
  month : Nat
  day : Nat
deriving DecidableEq, Repr

/-- Date comparison `date_obj < today` (lexicographic on year, month, day,
as Python's `datetime.date.__lt__`). -/
def Date.before (a b : Date) : Bool :=
  decide (a.year < b.year ∨ (a.year = b.year ∧
    (a.month < b.month ∨ (a.month = b.month ∧ a.day < b.day))))

/-- Gregorian leap-year test used by `datetime.date` validation. -/
def isLeap (y : Nat) : Bool :=
  y % 4 = 0 && (y % 100 ≠ 0 || y % 400 = 0)

/-- Length of month `m` in year `y` (`datetime.date` validation). -/
def daysInMonth (y m : Nat) : Nat :=
  if m = 2 then (if isLeap y then 29 else 28)
  else if m = 4 ∨ m = 6 ∨ m = 9 ∨ m = 11 then 30
  else 31

/-- Numeric value of an ASCII digit character. -/
def digitVal (c : Char) : Nat := c.toNat - 48

/-- Parse the `%m` / `%d` field of CPython's `strptime`: its regexes
(`1[0-2]|0[1-9]|[1-9]` for months, `3[01]|[12]\d|0[1-9]|[1-9]` for days)
accept either two digits spelling a value in `1..hi` or a single digit
`1..9` not followed by another digit.  Returns the value and the rest of
the input. -/
def parseField (hi : Nat) : List Char → Option (Nat × List Char)
  | [] => none
  | [c] => if c.isDigit ∧ 1 ≤ digitVal c then some (digitVal c, []) else none
  | c1 :: c2 :: rest =>
    if c1.isDigit then
      if c2.isDigit then
        let v := 10 * digitVal c1 + digitVal c2
        if 1 ≤ v ∧ v ≤ hi then some (v, rest) else none
      else if 1 ≤ digitVal c1 then some (digitVal c1, c2 :: rest) else none
    else none

/-- Model of `datetime.strptime(s, '%Y-%m-%d').date()` (lines 181 and
583): exactly four ASCII digits of year, a dash, a 1-2 digit month, a
dash, a 1-2 digit day, end of string; then `datetime.date` validation
(year at least 1, day within the month).  Returns `none` where CPython
raises `ValueError`.  (CPython's `\d` also admits non-ASCII Unicode
digits; that exotic case is not modelled.) -/
def parseDate (s : String) : Option Date :=
  match s.data with
  | c1 :: c2 :: c3 :: c4 :: '-' :: rest =>
    if c1.isDigit ∧ c2.isDigit ∧ c3.isDigit ∧ c4.isDigit then
      let y := ((digitVal c1 * 10 + digitVal c2) * 10 + digitVal c3) * 10 + digitVal c4
      match parseField 12 rest with
      | some (m, '-' :: rest2) =>
        match parseField 31 rest2 with
        | some (d, []) =>
          if 1 ≤ y ∧ d ≤ daysInMonth y m then some ⟨y, m, d⟩ else none
        | _ => none
      | _ => none
    else none
  | _ => none

/-! ### Rollover: `move_incomplete_tasks` (lines 172-210) -/

/-- Body of the inner loop of `move_incomplete_tasks` (lines 194-203) for
one collected incomplete task `p`: ensure today's bucket exists, insert a
copy of the task under the fresh id `ids n` with `moved_from` set to the
source date, delete the original from the source bucket, and bump the
uuid index and the moved counter.  The accumulator is
`(store, next uuid index, moved_count)`. -/
def moveOne (today_str date_str : String) (ids : Nat → String)
    (acc : Store × Nat × Nat) (p : String × Task) : Store × Nat × Nat :=
  let tasks0 := acc.1
  let n := acc.2.1
  let cnt := acc.2.2
  let tasks1 := if hasKey today_str tasks0 then tasks0 else setKey today_str [] tasks0
  let moved : Task := { p.2 with moved_from := some date_str }
  let tb := (lookupKey today_str tasks1).getD []
  let tasks2 := setKey today_str (setKey (ids n) moved tb) tasks1
  let sb := (lookupKey date_str tasks2).getD []
  let tasks3 := setKey date_str (eraseKey p.1 sb) tasks2
  (tasks3, n + 1, cnt + 1)

/-- Body of the outer loop of `move_incomplete_tasks` (lines 187-206) for
one past date: collect the incomplete tasks of its bucket, move each of
them, then drop the source bucket when it was left empty. -/
def processDate (today_str : String) (ids : Nat → String)
    (acc : Store × Nat × Nat) (date_str : String) : Store × Nat × Nat :=
  if hasKey date_str acc.1 then
    let bucket := (lookupKey date_str acc.1).getD []
    let toMove := bucket.filter (fun q => !q.2.completed)
    let acc2 := toMove.foldl (moveOne today_str date_str ids) acc
    if ((lookupKey date_str acc2.1).getD []).isEmpty then (eraseKey date_str acc2.1, acc2.2)
    else acc2
  else acc

/-- The scan of lines 178-185: every key of the store whose string parses
as a `%Y-%m-%d` date strictly before `today`; keys that raise
`ValueError` are skipped (`continue`). -/
def datesToCheck (tasks : Store) (today : Date) : List String :=
  (tasks.map Prod.fst).filter fun k =>
    match parseDate k with
    | some d => Date.before d today
    | none => false

/-- Function `move_incomplete_tasks` (lines 172-210).  `today` and its
canonical rendering `today_str` replace `datetime.now().date()` and its
`strftime('%Y-%m-%d')`; `ids` replaces the stream of `uuid.uuid4()`
results.  Returns the new store and `moved_count`. -/
def move_incomplete_tasks (tasks : Store) (today : Date) (today_str : String)
    (ids : Nat → String) : Store × Nat :=
  let r := (datesToCheck tasks today).foldl (processDate today_str ids) (tasks, 0, 0)
  (r.1, r.2.2)

/-! ### Sorting: `get_sorted_tasks` (lines 212-225) -/

/-- The dict `priority_order` of line 218 together with the `.get(_, 4)`
default. -/
def priority_order (p : String) : Nat :=
  if p = "High" then 1 else if p = "Medium" then 2 else if p = "Low" then 3 else 4

/-- The sort key of line 222: `(completed, priority rank, title)`,
compared lexicographically (Python tuple order; `False < True`). -/
def sortKey (q : String × Task) : Nat × Nat × String :=
  ((if q.2.completed then 1 else 0), priority_order q.2.priority, q.2.title)

/-- Non-strict lexicographic comparison of sort keys, the order realised
by Python's stable `sorted`. -/
def keyLE (a b : String × Task) : Bool :=
  decide ((sortKey a).1 < (sortKey b).1 ∨ ((sortKey a).1 = (sortKey b).1 ∧
    ((sortKey a).2.1 < (sortKey b).2.1 ∨ ((sortKey a).2.1 = (sortKey b).2.1 ∧
      (sortKey a).2.2 ≤ (sortKey b).2.2))))

/-- Function `get_sorted_tasks` (lines 212-225): the empty sequence when
the date has no bucket, otherwise the bucket's `(id, task)` pairs sorted
by `sortKey` (Python's `sorted` is a stable merge sort; modelled with
`List.mergeSort`, also stable). -/
def get_sorted_tasks (tasks : Store) (date_str : String) : List (String × Task) :=
  match lookupKey date_str tasks with
  | none => []
  | some bucket => bucket.mergeSort keyLE

/-! ### Backup export and import (lines 66-97)

The backup blob is a JSON document.  `json.dumps` / `json.load` (library
code, outside the repository) are abstracted away: the serialized blob is
represented by its parsed JSON value, and the uploaded file handed to
`restore_tasks_from_backup` by an `Except Unit Json` — `Except.error`
standing for a file whose contents raise `json.JSONDecodeError`. -/

/-- A parsed JSON value (as produced by Python's `json.load`; objects are
insertion-ordered dicts with unique keys). -/
inductive Json where
  | null
  | bool (b : Bool)
  | num (n : Int)
  | str (s : String)
  | arr (xs : List Json)
  | obj (kvs : List (String × Json))

/-- JSON form of one task record, with the optional keys present exactly
when set (order of keys is irrelevant to every reader). -/
def taskToJson (t : Task) : Json :=
  .obj ([("title", .str t.title), ("description", .str t.description),
         ("priority", .str t.priority), ("completed", .bool t.completed),
         ("created_at", .str t.created_at)]
    ++ (match t.modified_at with | some m => [("modified_at", Json.str m)] | none => [])
    ++ (match t.moved_from with | some m => [("moved_from", Json.str m)] | none => []))

/-- JSON form of the whole store (the value of the top-level key
`tasks`). -/
def storeToJson (tasks : Store) : Json :=
  .obj (tasks.map fun p => (p.1, Json.obj (p.2.map fun q => (q.1, taskToJson q.2))))

/-- Function `backup_tasks_to_browser` (lines 66-77): the versioned
wrapper `{'tasks': ..., 'export_date': ..., 'version': '1.0'}`. -/
def backup_tasks_to_browser (tasks : Store) (now : String) : Json :=
  .obj [("tasks", storeToJson tasks), ("export_date", .str now), ("version", .str "1.0")]

/-- Read a string-valued key of a JSON object. -/
def jGetStr (kvs : List (String × Json)) (k : String) : Option String :=
  match lookupKey k kvs with
  | some (.str s) => some s
  | _ => none

/-- Read a bool-valued key of a JSON object. -/
def jGetBool (kvs : List (String × Json)) (k : String) : Option Bool :=
  match lookupKey k kvs with
  | some (.bool b) => some b
  | _ => none

/-- Decode a JSON value into a `Task` record.  (The source performs no
such validation — it stores whatever JSON subtree arrived; this decoder is
the bridge back into the typed model, and succeeds exactly on the shapes
the program itself writes.) -/
def jsonToTask (j : Json) : Option Task :=
  match j with
  | .obj kvs =>
    match jGetStr kvs "title", jGetStr kvs "description", jGetStr kvs "priority",
          jGetBool kvs "completed", jGetStr kvs "created_at" with
    | some ti, some de, some pr, some co, some ca =>
      some { title := ti, description := de, priority := pr, completed := co,
             created_at := ca, modified_at := jGetStr kvs "modified_at",
             moved_from := jGetStr kvs "moved_from" }
    | _, _, _, _, _ => none
  | _ => none

/-- Decode a JSON value into a date bucket. -/
def jsonToBucket (j : Json) : Option Bucket :=
  match j with
  | .obj kvs => kvs.mapM fun p => (jsonToTask p.2).map fun t => (p.1, t)
  | _ => none

/-- Decode a JSON value into a whole store. -/
def jsonToStore (j : Json) : Option Store :=
  match j with
  | .obj kvs => kvs.mapM fun p => (jsonToBucket p.2).map fun b => (p.1, b)
  | _ => none

/-- Semantics of Python's containment test `'tasks' in backup_data` for an
arbitrary JSON value: key membership for dicts, element equality for
lists, substring search for strings, `TypeError` (`none`) otherwise. -/
def containsTasksKey (j : Json) : Option Bool :=
  match j with
  | .obj kvs => some (hasKey "tasks" kvs)
  | .arr xs => some (xs.any fun x => match x with | .str s => s = "tasks" | _ => false)
  | .str s => some (2 ≤ (s.splitOn "tasks").length)
  | _ => none

/-- Semantics of Python's indexing `backup_data['tasks']`: dict lookup for
dicts, `TypeError` (`none`) for every other value indexed by a string. -/
def indexTasks (j : Json) : Option Json :=
  match j with
  | .obj kvs => lookupKey "tasks" kvs
  | _ => none

/-- Outcome of `restore_tasks_from_backup`, one value per exit path of
lines 79-97: `ok` — the happy path (returns `True`); `okRaw` — the happy
path taken with a `tasks` value that is not store-shaped, so the new store
holds raw JSON not representable in the typed model; `formatError` — the
`st.error('Formato de archivo de respaldo inválido')` branch;
`parseError` — the `json.JSONDecodeError` branch; `otherError` — the
generic `except Exception` branch (e.g. a `TypeError` from `in` or from
indexing). -/
inductive RestoreStatus where
  | ok
  | okRaw
  | formatError
  | parseError
  | otherError
deriving DecidableEq, Repr

/-- Function `restore_tasks_from_backup` (lines 79-97).  Returns the store
after the call (`none` in the unrepresentable `okRaw` case) and the taken
exit path.  Every failure path leaves the store untouched; the happy path
replaces the whole store by the blob's `tasks` value. -/
def restore_tasks_from_backup (cur : Store) (blob : Except Unit Json) :
    Option Store × RestoreStatus :=
  match blob with
  | .error _ => (some cur, .parseError)
  | .ok j =>
    match containsTasksKey j with
    | none => (some cur, .otherError)
    | some false => (some cur, .formatError)
    | some true =>
      match indexTasks j with
      | none => (some cur, .otherError)
      | some t =>
        match jsonToStore t with
        | some s => (some s, .ok)
        | none => (none, .okRaw)

/-- Modelled from the spec: the `editTask` contract of §4.1 — "Fails with
`NotFoundError` if the task does not exist at `oldDate`", otherwise the
update/relocation.  The source (`edit_task`, lines 128-155) has no error
path at all; this definition exists to compare the spec's words with the
code. -/
inductive TaskError where
  | notFound
deriving DecidableEq, Repr

/-- Modelled from the spec: `editTask` as specified, failing with
`NotFoundError` when the task is absent at `old_date_str` and otherwise
behaving as the code does. -/
def editTaskSpec (tasks : Store)
    (old_date_str task_id new_date_str title priority description now : String) :
    Except TaskError Store :=
  match lookupTask tasks old_date_str task_id with
  | none => .error .notFound
  | some _ => .ok (edit_task tasks old_date_str task_id new_date_str title priority description now)

/-! ### Lemmas about the dict operations -/

theorem lookupKey_setKey_self {α : Type} (k : String) (v : α) (l : List (String × α)) :
    lookupKey k (setKey k v l) = some v := by
  induction l with
  | nil => simp [setKey, lookupKey]
  | cons p rest ih =>
    obtain ⟨k', v'⟩ := p
    by_cases h : k' = k
    · simp [setKey, h, lookupKey]
    · simp [setKey, h, lookupKey, ih]

theorem lookupKey_setKey_ne {α : Type} {k k' : String} (v : α) (l : List (String × α))
    (h : k ≠ k') : lookupKey k (setKey k' v l) = lookupKey k l := by
  have h' : ¬ k' = k := fun hh => h hh.symm
  induction l with
  | nil => simp [setKey, lookupKey, h']
  | cons p rest ih =>
    obtain ⟨a, b⟩ := p
    by_cases ha : a = k'
    · subst ha
      simp [setKey, lookupKey, h']
    · by_cases hk : a = k
      · simp [setKey, ha, lookupKey, hk, h]
      · simp [setKey, ha, lookupKey, hk, ih]

theorem lookupKey_eraseKey_ne {α : Type} {k k' : String} (l : List (String × α))
    (h : k ≠ k') : lookupKey k (eraseKey k' l) = lookupKey k l := by
  have h' : ¬ k' = k := fun hh => h hh.symm
  induction l with
  | nil => simp [eraseKey]
  | cons p rest ih =>
    obtain ⟨a, b⟩ := p
    by_cases ha : a = k'
    · subst ha
      simp [eraseKey, lookupKey, h']
    · by_cases hk : a = k
      · simp [eraseKey, ha, lookupKey, hk, h]
      · simp [eraseKey, ha, lookupKey, hk, ih]

theorem lookupKey_eq_none_of_not_mem {α : Type} {k : String} {l : List (String × α)}
    (h : k ∉ l.map Prod.fst) : lookupKey k l = none := by
  induction l with
  | nil => simp [lookupKey]
  | cons p rest ih =>
    simp only [List.map_cons, List.mem_cons] at h
    push_neg at h
    have h1 : ¬ p.1 = k := fun hh => h.1 hh.symm
    simp [lookupKey, h1, ih h.2]

theorem not_mem_of_lookupKey_eq_none {α : Type} {k : String} {l : List (String × α)}
    (h : lookupKey k l = none) : k ∉ l.map Prod.fst := by
  induction l with
  | nil => simp
  | cons p rest ih =>
    obtain ⟨a, b⟩ := p
    by_cases ha : a = k
    · simp [lookupKey, ha] at h
    · simp only [lookupKey, ha, if_false] at h
      simp [Ne.symm ha, ih h]

theorem lookupKey_eraseKey_self {α : Type} {k : String} {l : List (String × α)}
    (h : keysNodup l) : lookupKey k (eraseKey k l) = none := by
  induction l with
  | nil => simp [eraseKey, lookupKey]
  | cons p rest ih =>
    obtain ⟨a, b⟩ := p
    simp only [keysNodup, List.map_cons, List.nodup_cons] at h
    by_cases ha : a = k
    · simp only [eraseKey, ha, if_true]
      exact lookupKey_eq_none_of_not_mem (ha ▸ h.1)
    · simp [eraseKey, ha, lookupKey, ih h.2]

theorem mem_setKey {α : Type} {p : String × α} {k : String} {v : α} {l : List (String × α)}
    (h : p ∈ setKey k v l) : p = (k, v) ∨ p ∈ l := by
  induction l with
  | nil => simpa [setKey] using h
  | cons q rest ih =>
    obtain ⟨a, b⟩ := q
    by_cases ha : a = k
    · simp only [setKey, ha, if_true, List.mem_cons] at h
      rcases h with h | h
      · exact Or.inl h
      · exact Or.inr (List.mem_cons_of_mem _ h)
    · simp only [setKey, ha, if_false, List.mem_cons] at h
      rcases h with h | h
      · exact Or.inr (h ▸ List.mem_cons_self _ _)
      · rcases ih h with h' | h'
        · exact Or.inl h'
        · exact Or.inr (List.mem_cons_of_mem _ h')

theorem mem_eraseKey {α : Type} {p : String × α} {k : String} {l : List (String × α)}
    (h : p ∈ eraseKey k l) : p ∈ l := by
  induction l with
  | nil => simp [eraseKey] at h
  | cons q rest ih =>
    obtain ⟨a, b⟩ := q
    by_cases ha : a = k
    · simp only [eraseKey, ha, if_true] at h
      exact List.mem_cons_of_mem _ h
    · simp only [eraseKey, ha, if_false, List.mem_cons] at h
      rcases h with h | h
      · exact h ▸ List.mem_cons_self _ _
      · exact List.mem_cons_of_mem _ (ih h)

theorem lookupKey_mem {α : Type} {k : String} {v : α} {l : List (String × α)}
    (h : lookupKey k l = some v) : (k, v) ∈ l := by
  induction l with
  | nil => simp [lookupKey] at h
  | cons q rest ih =>
    obtain ⟨a, b⟩ := q
    by_cases ha : a = k
    · simp only [lookupKey, ha, if_true, Option.some.injEq] at h
      subst ha h
      exact List.mem_cons_self _ _
    · simp only [lookupKey, ha, if_false] at h
      exact List.mem_cons_of_mem _ (ih h)

theorem mem_keys_setKey {α : Type} {a k : String} {v : α} {l : List (String × α)}
    (h : a ∈ (setKey k v l).map Prod.fst) : a = k ∨ a ∈ l.map Prod.fst := by
  simp only [List.mem_map] at h
  obtain ⟨p, hp, hpa⟩ := h
  rcases mem_setKey hp with h' | h'
  · left; rw [← hpa, h']
  · right; exact List.mem_map.mpr ⟨p, h', hpa⟩

theorem keysNodup_setKey {α : Type} {l : List (String × α)} (k : String) (v : α)
    (h : keysNodup l) : keysNodup (setKey k v l) := by
  induction l with
  | nil => simp [setKey, keysNodup]
  | cons q rest ih =>
    obtain ⟨a, b⟩ := q
    simp only [keysNodup, List.map_cons, List.nodup_cons] at h
    by_cases ha : a = k
    · subst ha
      simpa [setKey, keysNodup] using h
    · have hrest := ih h.2
      simp only [setKey, ha, if_false, keysNodup, List.map_cons, List.nodup_cons]
      refine ⟨fun hmem => ?_, hrest⟩
      rcases mem_keys_setKey hmem with h' | h'
      · exact ha h'
      · exact h.1 h'

theorem keysNodup_eraseKey {α : Type} {l : List (String × α)} (k : String)
    (h : keysNodup l) : keysNodup (eraseKey k l) := by
  induction l with
  | nil => simp [eraseKey, keysNodup]
  | cons q rest ih =>
    obtain ⟨a, b⟩ := q
    simp only [keysNodup, List.map_cons, List.nodup_cons] at h
    by_cases ha : a = k
    · simpa [eraseKey, ha, keysNodup] using h.2
    · have hrest := ih h.2
      simp only [eraseKey, ha, if_false, keysNodup, List.map_cons, List.nodup_cons]
      refine ⟨fun hmem => ?_, hrest⟩
      simp only [List.mem_map] at hmem
      obtain ⟨p, hp, hpa⟩ := hmem
      exact h.1 (List.mem_map.mpr ⟨p, mem_eraseKey hp, hpa⟩)

theorem setKey_eq_append {α : Type} {k : String} {l : List (String × α)} (v : α)
    (h : lookupKey k l = none) : setKey k v l = l ++ [(k, v)] := by
  induction l with
  | nil => simp [setKey]
  | cons q rest ih =>
    obtain ⟨a, b⟩ := q
    by_cases ha : a = k
    · simp [lookupKey, ha] at h
    · simp only [lookupKey, ha, if_false] at h
      simp [setKey, ha, ih h]

theorem lookupKey_append {α : Type} (k : String) (l₁ l₂ : List (String × α)) :
    lookupKey k (l₁ ++ l₂) =
      match lookupKey k l₁ with
      | some v => some v
      | none => lookupKey k l₂ := by
  induction l₁ with
  | nil => simp [lookupKey]
  | cons q rest ih =>
    obtain ⟨a, b⟩ := q
    by_cases ha : a = k
    · simp [lookupKey, ha]
    · simp [lookupKey, ha, ih]

theorem lookupKey_filter {k : String} {l : Bucket} (P : String × Task → Bool)
    (h : keysNodup l) :
    lookupKey k (l.filter P) =
      match lookupKey k l with
      | some v => if P (k, v) then some v else none
      | none => none := by
  induction l with
  | nil => simp [lookupKey]
  | cons q rest ih =>
    obtain ⟨a, b⟩ := q
    simp only [keysNodup, List.map_cons, List.nodup_cons] at h
    by_cases ha : a = k
    · subst ha
      by_cases hp : P (a, b)
      · simp [List.filter_cons, hp, lookupKey]
      · have hnone : lookupKey a (List.filter P rest) = none := by
          apply lookupKey_eq_none_of_not_mem
          intro hmem
          simp only [List.mem_map] at hmem
          obtain ⟨p, hp', hpa⟩ := hmem
          exact h.1 (List.mem_map.mpr ⟨p, List.mem_of_mem_filter hp', hpa⟩)
        simp [List.filter_cons, hp, lookupKey, hnone]
    · by_cases hp : P (a, b)
      · simp [List.filter_cons, hp, lookupKey, ha, ih h.2]
      · simp [List.filter_cons, hp, lookupKey, ha, ih h.2]

theorem mem_allTaskIds {tasks : Store} {d tid : String} {b : Bucket}
    (hb : lookupKey d tasks = some b) (ht : tid ∈ b.map Prod.fst) :
    tid ∈ allTaskIds tasks := by
  simp only [allTaskIds, List.mem_flatten]
  exact ⟨b.map Prod.fst, List.mem_map.mpr ⟨(d, b), lookupKey_mem hb, rfl⟩, ht⟩

/-! ### Lemmas about the rollover fold -/

theorem lookup_ensureToday (tstr : String) (tasks : Store) :
    lookupKey tstr (if hasKey tstr tasks then tasks else setKey tstr [] tasks) =
      some ((lookupKey tstr tasks).getD []) := by
  cases h : hasKey tstr tasks with
  | true =>
    unfold hasKey at h
    cases hx : lookupKey tstr tasks with
    | none => rw [hx] at h; simp at h
    | some b => simp [hx]
  | false =>
    unfold hasKey at h
    cases hx : lookupKey tstr tasks with
    | none => simp [lookupKey_setKey_self, hx]
    | some b => rw [hx] at h; simp at h

theorem lookup_ensureToday_other {k tstr : String} (tasks : Store) (h : k ≠ tstr) :
    lookupKey k (if hasKey tstr tasks then tasks else setKey tstr [] tasks) =
      lookupKey k tasks := by
  cases hasKey tstr tasks with
  | true => simp
  | false => simp [lookupKey_setKey_ne _ _ h]

theorem moveOne_lookup_other {tstr d k : String} (ids : Nat → String)
    (acc : Store × Nat × Nat) (p : String × Task) (hk1 : k ≠ tstr) (hk2 : k ≠ d) :
    lookupKey k (moveOne tstr d ids acc p).1 = lookupKey k acc.1 := by
  unfold moveOne
  simp only []
  rw [lookupKey_setKey_ne _ _ hk2, lookupKey_setKey_ne _ _ hk1, lookup_ensureToday_other _ hk1]

theorem moveOne_lookup_source {tstr d : String} (ids : Nat → String)
    (acc : Store × Nat × Nat) (p : String × Task) (hd : d ≠ tstr) :
    lookupKey d (moveOne tstr d ids acc p).1 =
      some (eraseKey p.1 ((lookupKey d acc.1).getD [])) := by
  unfold moveOne
  simp only []
  rw [lookupKey_setKey_self]
  rw [lookupKey_setKey_ne _ _ hd, lookup_ensureToday_other _ hd]

theorem moveOne_lookup_today {tstr d : String} (ids : Nat → String)
    (acc : Store × Nat × Nat) (p : String × Task) (hd : d ≠ tstr) :
    lookupKey tstr (moveOne tstr d ids acc p).1 =
      some (setKey (ids acc.2.1) { p.2 with moved_from := some d }
        ((lookupKey tstr acc.1).getD [])) := by
  unfold moveOne
  simp only []
  rw [lookupKey_setKey_ne _ _ (fun hh => hd hh.symm), lookupKey_setKey_self]
  rw [lookup_ensureToday]
  simp

theorem moveOne_idx (tstr d : String) (ids : Nat → String)
    (acc : Store × Nat × Nat) (p : String × Task) :
    (moveOne tstr d ids acc p).2.1 = acc.2.1 + 1 := rfl

theorem moveOne_cnt (tstr d : String) (ids : Nat → String)
    (acc : Store × Nat × Nat) (p : String × Task) :
    (moveOne tstr d ids acc p).2.2 = acc.2.2 + 1 := rfl

theorem keysNodup_getD_lookup {tasks : Store} (h : ∀ p ∈ tasks, keysNodup p.2)
    (k : String) : keysNodup ((lookupKey k tasks).getD []) := by
  cases hx : lookupKey k tasks with
  | none => simp [keysNodup]
  | some b => simpa using h (k, b) (lookupKey_mem hx)

theorem bucketsNodup_setKey {tasks : Store} {k : String} {b : Bucket}
    (h : ∀ p ∈ tasks, keysNodup p.2) (hb : keysNodup b) :
    ∀ p ∈ setKey k b tasks, keysNodup p.2 := by
  intro p hp
  rcases mem_setKey hp with h' | h'
  · rw [h']; exact hb
  · exact h p h'

theorem bucketsNodup_eraseKey {tasks : Store} {k : String}
    (h : ∀ p ∈ tasks, keysNodup p.2) :
    ∀ p ∈ eraseKey k tasks, keysNodup p.2 :=
  fun p hp => h p (mem_eraseKey hp)

theorem moveOne_nodup (tstr d : String) (ids : Nat → String)
    (acc : Store × Nat × Nat) (p : String × Task)
    (hk : keysNodup acc.1) (hb : ∀ q ∈ acc.1, keysNodup q.2) :
    keysNodup (moveOne tstr d ids acc p).1 ∧
      ∀ q ∈ (moveOne tstr d ids acc p).1, keysNodup q.2 := by
  unfold moveOne
  simp only []
  have hk1 : keysNodup (if hasKey tstr acc.1 then acc.1 else setKey tstr [] acc.1) := by
    cases hasKey tstr acc.1 with
    | true => simpa using hk
    | false => simpa using keysNodup_setKey _ _ hk
  have hb1 : ∀ q ∈ (if hasKey tstr acc.1 then acc.1 else setKey tstr [] acc.1),
      keysNodup q.2 := by
    cases hasKey tstr acc.1 with
    | true => simpa using hb
    | false =>
      simp only [if_false, Bool.false_eq_true]
      exact bucketsNodup_setKey hb (by simp [keysNodup])
  constructor
  · exact keysNodup_setKey _ _ (keysNodup_setKey _ _ hk1)
  · apply bucketsNodup_setKey
    · apply bucketsNodup_setKey hb1
      exact keysNodup_setKey _ _ (keysNodup_getD_lookup hb1 tstr)
    · exact keysNodup_eraseKey _ (keysNodup_getD_lookup (bucketsNodup_setKey hb1
        (keysNodup_setKey _ _ (keysNodup_getD_lookup hb1 tstr))) d)

theorem foldl_moveOne_lookup_other {tstr d k : String} (ids : Nat → String)
    (hk1 : k ≠ tstr) (hk2 : k ≠ d) :
    ∀ (ts : List (String × Task)) (acc : Store × Nat × Nat),
      lookupKey k (ts.foldl (moveOne tstr d ids) acc).1 = lookupKey k acc.1 := by
  intro ts
  induction ts with
  | nil => intro acc; rfl
  | cons q ts ih =>
    intro acc
    rw [List.foldl_cons, ih]
    exact moveOne_lookup_other ids acc q hk1 hk2

theorem foldl_moveOne_idx (tstr d : String) (ids : Nat → String) :
    ∀ (ts : List (String × Task)) (acc : Store × Nat × Nat),
      (ts.foldl (moveOne tstr d ids) acc).2.1 = acc.2.1 + ts.length := by
  intro ts
  induction ts with
  | nil => intro acc; simp
  | cons q ts ih =>
    intro acc
    rw [List.foldl_cons, ih, moveOne_idx]
    simp [Nat.add_assoc, Nat.add_comm 1 ts.length]

theorem foldl_moveOne_cnt (tstr d : String) (ids : Nat → String) :
    ∀ (ts : List (String × Task)) (acc : Store × Nat × Nat),
      (ts.foldl (moveOne tstr d ids) acc).2.2 = acc.2.2 + ts.length := by
  intro ts
  induction ts with
  | nil => intro acc; simp
  | cons q ts ih =>
    intro acc
    rw [List.foldl_cons, ih, moveOne_cnt]
    simp [Nat.add_assoc, Nat.add_comm 1 ts.length]

theorem foldl_moveOne_lookup_source {tstr d : String} (ids : Nat → String) (hd : d ≠ tstr) :
    ∀ (ts : List (String × Task)) (acc : Store × Nat × Nat) (b : Bucket),
      lookupKey d acc.1 = some b →
      lookupKey d (ts.foldl (moveOne tstr d ids) acc).1 =
        some (ts.foldl (fun bb q => eraseKey q.1 bb) b) := by
  intro ts
  induction ts with
  | nil => intro acc b hb; simpa using hb
  | cons q ts ih =>
    intro acc b hb
    rw [List.foldl_cons, List.foldl_cons]
    apply ih
    rw [moveOne_lookup_source ids acc q hd, hb]
    simp

theorem foldl_moveOne_nodup (tstr d : String) (ids : Nat → String) :
    ∀ (ts : List (String × Task)) (acc : Store × Nat × Nat),
      keysNodup acc.1 → (∀ q ∈ acc.1, keysNodup q.2) →
      keysNodup (ts.foldl (moveOne tstr d ids) acc).1 ∧
        ∀ q ∈ (ts.foldl (moveOne tstr d ids) acc).1, keysNodup q.2 := by
  intro ts
  induction ts with
  | nil => intro acc h1 h2; exact ⟨h1, h2⟩
  | cons q ts ih =>
    intro acc h1 h2
    rw [List.foldl_cons]
    have := moveOne_nodup tstr d ids acc q h1 h2
    exact ih _ this.1 this.2

/-- The rekeyed copies that the inner loop inserts into today's bucket for
one source date: the j-th collected task is inserted under id `ids (n+j)`
with `moved_from` set to the source date. -/
def mvEntries (ids : Nat → String) (d : String) : Nat → List (String × Task) → List (String × Task)
  | _, [] => []
  | n, p :: ps => (ids n, { p.2 with moved_from := some d }) :: mvEntries ids d (n + 1) ps

theorem mvEntries_length (ids : Nat → String) (d : String) :
    ∀ (n : Nat) (ts : List (String × Task)), (mvEntries ids d n ts).length = ts.length := by
  intro n ts
  induction ts generalizing n with
  | nil => rfl
  | cons q ts ih => simp [mvEntries, ih]

theorem foldl_moveOne_lookup_today {tstr d : String} (ids : Nat → String) (hd : d ≠ tstr) :
    ∀ (ts : List (String × Task)) (acc : Store × Nat × Nat),
      (∀ i, i < ts.length →
        lookupKey (ids (acc.2.1 + i)) ((lookupKey tstr acc.1).getD []) = none) →
      (∀ i j, i < ts.length → j < ts.length → ids (acc.2.1 + i) = ids (acc.2.1 + j) → i = j) →
      (ts = [] → lookupKey tstr (ts.foldl (moveOne tstr d ids) acc).1 = lookupKey tstr acc.1) ∧
      (ts ≠ [] → lookupKey tstr (ts.foldl (moveOne tstr d ids) acc).1 =
        some ((lookupKey tstr acc.1).getD [] ++ mvEntries ids d acc.2.1 ts)) := by
  intro ts
  induction ts with
  | nil => intro acc _ _; exact ⟨fun _ => rfl, fun h => absurd rfl h⟩
  | cons q ts ih =>
    intro acc hfresh hinj
    have hlen : (q :: ts).length = ts.length + 1 := rfl
    have hfresh0 : lookupKey (ids acc.2.1) ((lookupKey tstr acc.1).getD []) = none := by
      simpa using hfresh 0 (by omega)
    have htoday : lookupKey tstr (moveOne tstr d ids acc q).1 =
        some ((lookupKey tstr acc.1).getD [] ++
          [(ids acc.2.1, { q.2 with moved_from := some d })]) := by
      rw [moveOne_lookup_today ids acc q hd, setKey_eq_append _ hfresh0]
    have hidx : (moveOne tstr d ids acc q).2.1 = acc.2.1 + 1 := rfl
    have hfresh' : ∀ i, i < ts.length →
        lookupKey (ids ((moveOne tstr d ids acc q).2.1 + i))
          ((lookupKey tstr (moveOne tstr d ids acc q).1).getD []) = none := by
      intro i hi
      rw [htoday, hidx]
      simp only [Option.getD_some]
      rw [lookupKey_append]
      have h1 : lookupKey (ids (acc.2.1 + 1 + i)) ((lookupKey tstr acc.1).getD []) = none := by
        have := hfresh (i + 1) (by omega)
        rwa [show acc.2.1 + (i + 1) = acc.2.1 + 1 + i by omega] at this
      rw [h1]
      have h2 : ids (acc.2.1 + 1 + i) ≠ ids acc.2.1 := by
        intro heq
        have := hinj (i + 1) 0 (by omega) (by omega)
          (by rwa [show acc.2.1 + (i + 1) = acc.2.1 + 1 + i by omega, Nat.add_zero])
        omega
      have h2' : ¬ ids acc.2.1 = ids (acc.2.1 + 1 + i) := fun hh => h2 hh.symm
      simp [lookupKey, h2']
    have hinj' : ∀ i j, i < ts.length → j < ts.length →
        ids ((moveOne tstr d ids acc q).2.1 + i) = ids ((moveOne tstr d ids acc q).2.1 + j) →
        i = j := by
      intro i j hi hj heq
      rw [hidx] at heq
      have := hinj (i + 1) (j + 1) (by omega) (by omega)
        (by rwa [show acc.2.1 + (i + 1) = acc.2.1 + 1 + i by omega,
               show acc.2.1 + (j + 1) = acc.2.1 + 1 + j by omega])
      omega
    have main := ih (moveOne tstr d ids acc q) hfresh' hinj'
    refine ⟨fun h => by simp at h, fun _ => ?_⟩
    rw [List.foldl_cons]
    by_cases hts : ts = []
    · subst hts
      rw [(main.1 rfl : _)]
      rw [htoday]
      rfl
    · rw [main.2 hts, htoday, hidx]
      simp only [Option.getD_some]
      rw [List.append_assoc]
      rfl

theorem foldl_erase_cons_of_ne :
    ∀ (L : List (String × Task)) (acc : Bucket) (k : String) (t : Task),
      (∀ q ∈ L, q.1 ≠ k) →
      L.foldl (fun bb q => eraseKey q.1 bb) ((k, t) :: acc) =
        (k, t) :: L.foldl (fun bb q => eraseKey q.1 bb) acc := by
  intro L
  induction L with
  | nil => intro acc k t _; rfl
  | cons q L ih =>
    intro acc k t hne
    have hq : q.1 ≠ k := hne q (List.mem_cons_self _ _)
    have hq' : ¬ k = q.1 := fun hh => hq hh.symm
    rw [List.foldl_cons, List.foldl_cons]
    have : eraseKey q.1 ((k, t) :: acc) = (k, t) :: eraseKey q.1 acc := by
      simp [eraseKey, hq']
    rw [this]
    exact ih _ k t (fun r hr => hne r (List.mem_cons_of_mem _ hr))

theorem eraseIncompletes :
    ∀ (b : Bucket), keysNodup b →
      (b.filter fun q => !q.2.completed).foldl (fun bb q => eraseKey q.1 bb) b =
        b.filter fun q => q.2.completed := by
  intro b
  induction b with
  | nil => intro _; rfl
  | cons p rest ih =>
    intro h
    obtain ⟨k, t⟩ := p
    simp only [keysNodup, List.map_cons, List.nodup_cons] at h
    cases hc : t.completed with
    | true =>
      have h1 : (((k, t) :: rest).filter fun q => !q.2.completed) =
          rest.filter fun q => !q.2.completed := by
        simp [List.filter_cons, hc]
      have h2 : (((k, t) :: rest).filter fun q => q.2.completed) =
          (k, t) :: rest.filter fun q => q.2.completed := by
        simp [List.filter_cons, hc]
      rw [h1, h2]
      have hne : ∀ q ∈ rest.filter fun q => !q.2.completed, q.1 ≠ k := by
        intro q hq hqk
        exact h.1 (hqk ▸ List.mem_map.mpr ⟨q, List.mem_of_mem_filter hq, rfl⟩)
      rw [foldl_erase_cons_of_ne _ _ _ _ hne, ih h.2]
    | false =>
      have h1 : (((k, t) :: rest).filter fun q => !q.2.completed) =
          (k, t) :: rest.filter fun q => !q.2.completed := by
        simp [List.filter_cons, hc]
      have h2 : (((k, t) :: rest).filter fun q => q.2.completed) =
          rest.filter fun q => q.2.completed := by
        simp [List.filter_cons, hc]
      rw [h1, h2, List.foldl_cons]
      have h3 : eraseKey k ((k, t) :: rest) = rest := by simp [eraseKey]
      simp only [h3]
      exact ih h.2

/-- Incomplete tasks of the bucket of `d` (the `tasks_to_move` list of
lines 189-192). -/
def pendingFor (S : Store) (d : String) : List (String × Task) :=
  ((lookupKey d S).getD []).filter fun q => !q.2.completed

theorem processDate_spec (tstr : String) (ids : Nat → String) {d : String} (hd : d ≠ tstr)
    (S : Store) (n c : Nat) (hk : keysNodup S) (hb : ∀ p ∈ S, keysNodup p.2)
    (hfresh : ∀ i, i < (pendingFor S d).length →
      lookupKey (ids (n + i)) ((lookupKey tstr S).getD []) = none)
    (hinj : ∀ i j, i < (pendingFor S d).length → j < (pendingFor S d).length →
      ids (n + i) = ids (n + j) → i = j) :
    (∀ k, k ≠ tstr → k ≠ d →
      lookupKey k (processDate tstr ids (S, n, c) d).1 = lookupKey k S) ∧
    (lookupKey d (processDate tstr ids (S, n, c) d).1 =
      match lookupKey d S with
      | none => none
      | some b =>
        if (b.filter fun q => q.2.completed).isEmpty = true then none
        else some (b.filter fun q => q.2.completed)) ∧
    (pendingFor S d = [] →
      lookupKey tstr (processDate tstr ids (S, n, c) d).1 = lookupKey tstr S) ∧
    (pendingFor S d ≠ [] →
      lookupKey tstr (processDate tstr ids (S, n, c) d).1 =
        some ((lookupKey tstr S).getD [] ++ mvEntries ids d n (pendingFor S d))) ∧
    ((processDate tstr ids (S, n, c) d).2.1 = n + (pendingFor S d).length) ∧
    ((processDate tstr ids (S, n, c) d).2.2 = c + (pendingFor S d).length) ∧
    keysNodup (processDate tstr ids (S, n, c) d).1 ∧
    (∀ p ∈ (processDate tstr ids (S, n, c) d).1, keysNodup p.2) := by
  cases hdk : lookupKey d S with
  | none =>
    have hhk : hasKey d S = false := by unfold hasKey; rw [hdk]; rfl
    have hres : processDate tstr ids (S, n, c) d = (S, n, c) := by
      unfold processDate
      simp [hhk]
    have hpend : pendingFor S d = [] := by
      unfold pendingFor
      rw [hdk]
      rfl
    rw [hres, hpend, hdk]
    exact ⟨fun k _ _ => rfl, rfl, fun _ => rfl, fun hne => absurd rfl hne, by simp, by simp,
      hk, hb⟩
  | some b =>
    have hhk : hasKey d S = true := by unfold hasKey; rw [hdk]; rfl
    have hbnd : keysNodup b := by simpa using hb (d, b) (lookupKey_mem hdk)
    have hpend : pendingFor S d = b.filter fun q => !q.2.completed := by
      unfold pendingFor
      rw [hdk]
      simp
    have hres : processDate tstr ids (S, n, c) d =
        (if ((lookupKey d ((b.filter fun q => !q.2.completed).foldl
              (moveOne tstr d ids) (S, n, c)).1).getD []).isEmpty = true
         then (eraseKey d ((b.filter fun q => !q.2.completed).foldl
              (moveOne tstr d ids) (S, n, c)).1,
              ((b.filter fun q => !q.2.completed).foldl (moveOne tstr d ids) (S, n, c)).2)
         else (b.filter fun q => !q.2.completed).foldl (moveOne tstr d ids) (S, n, c)) := by
      unfold processDate
      rw [if_pos hhk]
      rw [hdk]
      rfl
    set toMove := b.filter fun q => !q.2.completed with htm
    set acc2 := toMove.foldl (moveOne tstr d ids) (S, n, c) with hacc2
    have hsrc : lookupKey d acc2.1 = some (b.filter fun q => q.2.completed) := by
      rw [hacc2, foldl_moveOne_lookup_source ids hd toMove (S, n, c) b hdk, htm,
        eraseIncompletes b hbnd]
    have hnodup2 : keysNodup acc2.1 ∧ ∀ p ∈ acc2.1, keysNodup p.2 :=
      foldl_moveOne_nodup tstr d ids toMove (S, n, c) hk hb
    have htoday := foldl_moveOne_lookup_today ids hd toMove (S, n, c)
      (by rw [← hpend] at htm ⊢; exact fun i hi => hfresh i hi)
      (by rw [← hpend] at htm ⊢; exact fun i j hi hj => hinj i j hi hj)
    have hidx : acc2.2.1 = n + toMove.length := foldl_moveOne_idx tstr d ids toMove (S, n, c)
    have hcnt : acc2.2.2 = c + toMove.length := foldl_moveOne_cnt tstr d ids toMove (S, n, c)
    have hother : ∀ k, k ≠ tstr → k ≠ d → lookupKey k acc2.1 = lookupKey k S :=
      fun k h1 h2 => foldl_moveOne_lookup_other ids h1 h2 toMove (S, n, c)
    rw [hres]
    rw [hsrc]
    simp only [Option.getD_some]
    rw [← hpend] at htm
    rcases Bool.eq_false_or_eq_true ((List.filter (fun q => q.2.completed) b).isEmpty)
      with hemp | hemp
    · rw [if_pos hemp]
      refine ⟨?_, ?_, ?_, ?_, ?_, ?_, ?_, ?_⟩
      · intro k h1 h2
        rw [lookupKey_eraseKey_ne _ h2]
        exact hother k h1 h2
      · rw [lookupKey_eraseKey_self hnodup2.1]
        simp [hemp]
      · intro hp
        rw [lookupKey_eraseKey_ne _ (fun hh => hd hh.symm)]
        exact htoday.1 (by rw [← hpend]; exact hp)
      · intro hp
        rw [lookupKey_eraseKey_ne _ (fun hh => hd hh.symm)]
        rw [hpend]
        exact htoday.2 (by rw [← hpend]; exact hp)
      · rw [hpend]; exact hidx
      · rw [hpend]; exact hcnt
      · exact keysNodup_eraseKey _ hnodup2.1
      · exact bucketsNodup_eraseKey hnodup2.2
    · have hemp' : ¬ (List.filter (fun q => q.2.completed) b).isEmpty = true := by
        simp [hemp]
      rw [if_neg hemp']
      refine ⟨hother, ?_, ?_, ?_, ?_, ?_, hnodup2.1, hnodup2.2⟩
      · rw [hsrc]
        simp [hemp]
      · intro hp
        exact htoday.1 (by rw [← hpend]; exact hp)
      · intro hp
        rw [hpend]
        exact htoday.2 (by rw [← hpend]; exact hp)
      · rw [hpend]; exact hidx
      · rw [hpend]; exact hcnt

/-- The copies inserted into today's bucket over a whole list of source
dates, with uuid indices allocated sequentially. -/
def rolloverEntries (ids : Nat → String) (S : Store) : Nat → List String → List (String × Task)
  | _, [] => []
  | n, d :: ds =>
    mvEntries ids d n (pendingFor S d) ++
      rolloverEntries ids S (n + (pendingFor S d).length) ds

/-- Total number of incomplete tasks collected over a list of source
dates. -/
def pendCount (S : Store) (L : List String) : Nat :=
  (L.map fun d => (pendingFor S d).length).sum

theorem rolloverEntries_length (ids : Nat → String) (S : Store) :
    ∀ (L : List String) (n : Nat), (rolloverEntries ids S n L).length = pendCount S L := by
  intro L
  induction L with
  | nil => intro n; rfl
  | cons d L ih =>
    intro n
    simp [rolloverEntries, pendCount, mvEntries_length, ih, List.sum_cons]

theorem pendingFor_congr {S1 S2 : Store} {d : String}
    (h : lookupKey d S1 = lookupKey d S2) : pendingFor S1 d = pendingFor S2 d := by
  unfold pendingFor
  rw [h]

theorem rolloverEntries_congr (ids : Nat → String) {S1 S2 : Store} :
    ∀ (L : List String), (∀ d ∈ L, lookupKey d S1 = lookupKey d S2) →
      ∀ (n : Nat), rolloverEntries ids S1 n L = rolloverEntries ids S2 n L := by
  intro L
  induction L with
  | nil => intro _ n; rfl
  | cons d L ih =>
    intro h n
    have hd := pendingFor_congr (h d (List.mem_cons_self _ _))
    simp only [rolloverEntries, hd]
    rw [ih (fun d' hd' => h d' (List.mem_cons_of_mem _ hd'))]

theorem pendCount_congr {S1 S2 : Store} :
    ∀ (L : List String), (∀ d ∈ L, lookupKey d S1 = lookupKey d S2) →
      pendCount S1 L = pendCount S2 L := by
  intro L
  induction L with
  | nil => intro _; rfl
  | cons d L ih =>
    intro h
    have hd := pendingFor_congr (h d (List.mem_cons_self _ _))
    simp only [pendCount, List.map_cons, List.sum_cons, hd]
    have := ih (fun d' hd' => h d' (List.mem_cons_of_mem _ hd'))
    simp only [pendCount] at this
    rw [this]

theorem mvEntries_eq_nil_iff (ids : Nat → String) (d : String) (n : Nat)
    (ts : List (String × Task)) : mvEntries ids d n ts = [] ↔ ts = [] := by
  cases ts with
  | nil => simp [mvEntries]
  | cons q ts => simp [mvEntries]

theorem lookupKey_mvEntries_none (ids : Nat → String) (d : String) {x : String} :
    ∀ (ts : List (String × Task)) (n : Nat), (∀ j, j < ts.length → x ≠ ids (n + j)) →
      lookupKey x (mvEntries ids d n ts) = none := by
  intro ts
  induction ts with
  | nil => intro n _; rfl
  | cons q ts ih =>
    intro n h
    have h0 : ¬ ids n = x := by
      intro hh
      exact h 0 (by simp) (by rw [Nat.add_zero]; exact hh.symm)
    simp only [mvEntries, lookupKey, h0, if_false]
    apply ih
    intro j hj
    have := h (j + 1) (by simp; omega)
    rwa [show n + (j + 1) = n + 1 + j by omega] at this

theorem foldl_processDate_spec (tstr : String) (ids : Nat → String) :
    ∀ (L : List String) (acc : Store × Nat × Nat),
      tstr ∉ L → L.Nodup → keysNodup acc.1 → (∀ p ∈ acc.1, keysNodup p.2) →
      (∀ i, i < pendCount acc.1 L →
        lookupKey (ids (acc.2.1 + i)) ((lookupKey tstr acc.1).getD []) = none) →
      (∀ i j, i < pendCount acc.1 L → j < pendCount acc.1 L →
        ids (acc.2.1 + i) = ids (acc.2.1 + j) → i = j) →
      (∀ k, k ∉ L → k ≠ tstr →
        lookupKey k (L.foldl (processDate tstr ids) acc).1 = lookupKey k acc.1) ∧
      (∀ k, k ∈ L →
        lookupKey k (L.foldl (processDate tstr ids) acc).1 =
          match lookupKey k acc.1 with
          | none => none
          | some b =>
            if (b.filter fun q => q.2.completed).isEmpty = true then none
            else some (b.filter fun q => q.2.completed)) ∧
      (rolloverEntries ids acc.1 acc.2.1 L = [] →
        lookupKey tstr (L.foldl (processDate tstr ids) acc).1 = lookupKey tstr acc.1) ∧
      (rolloverEntries ids acc.1 acc.2.1 L ≠ [] →
        lookupKey tstr (L.foldl (processDate tstr ids) acc).1 =
          some ((lookupKey tstr acc.1).getD [] ++ rolloverEntries ids acc.1 acc.2.1 L)) ∧
      ((L.foldl (processDate tstr ids) acc).2.1 = acc.2.1 + pendCount acc.1 L) ∧
      ((L.foldl (processDate tstr ids) acc).2.2 = acc.2.2 + pendCount acc.1 L) ∧
      keysNodup (L.foldl (processDate tstr ids) acc).1 ∧
      (∀ p ∈ (L.foldl (processDate tstr ids) acc).1, keysNodup p.2) := by
  intro L
  induction L with
  | nil =>
    intro acc _ _ hk hb _ _
    exact ⟨fun k _ _ => rfl, fun k hk' => absurd hk' (List.not_mem_nil k),
      fun _ => rfl, fun hne => absurd rfl hne, by simp [pendCount], by simp [pendCount], hk, hb⟩
  | cons d L ih =>
    intro acc htL hnd hk hb hfresh hinj
    have hdt : d ≠ tstr := by
      intro hh
      exact htL (hh ▸ List.mem_cons_self _ _)
    have htL' : tstr ∉ L := fun hh => htL (List.mem_cons_of_mem _ hh)
    have hdL : d ∉ L := (List.nodup_cons.mp hnd).1
    have hnd' : L.Nodup := (List.nodup_cons.mp hnd).2
    obtain ⟨S, n, c⟩ := acc
    simp only at hk hb hfresh hinj
    have hm : pendCount S (d :: L) = (pendingFor S d).length + pendCount S L := by
      simp [pendCount, List.map_cons, List.sum_cons]
    obtain ⟨PA, PB, PC1, PC2, PD1, PD2, PE1, PE2⟩ :=
      processDate_spec tstr ids hdt S n c hk hb
        (fun i hi => hfresh i (by omega))
        (fun i j hi hj => hinj i j (by omega) (by omega))
    have hPkeys : ∀ d' ∈ L, lookupKey d' (processDate tstr ids (S, n, c) d).1 =
        lookupKey d' S := by
      intro d' hd'
      exact PA d' (fun hh => htL' (hh ▸ hd')) (fun hh => hdL (hh ▸ hd'))
    have hpc : pendCount (processDate tstr ids (S, n, c) d).1 L = pendCount S L :=
      pendCount_congr L hPkeys
    have hre : ∀ m, rolloverEntries ids (processDate tstr ids (S, n, c) d).1 m L =
        rolloverEntries ids S m L :=
      fun m => rolloverEntries_congr ids L hPkeys m
    have hfresh' : ∀ i, i < pendCount (processDate tstr ids (S, n, c) d).1 L →
        lookupKey (ids ((processDate tstr ids (S, n, c) d).2.1 + i))
          ((lookupKey tstr (processDate tstr ids (S, n, c) d).1).getD []) = none := by
      intro i hi
      rw [hpc] at hi
      rw [PD1]
      by_cases hp : pendingFor S d = []
      · rw [PC1 hp]
        have := hfresh ((pendingFor S d).length + i) (by omega)
        rwa [show n + ((pendingFor S d).length + i) =
          n + (pendingFor S d).length + i by omega] at this
      · rw [PC2 hp]
        simp only [Option.getD_some]
        rw [lookupKey_append]
        have h1 : lookupKey (ids (n + (pendingFor S d).length + i))
            ((lookupKey tstr S).getD []) = none := by
          have := hfresh ((pendingFor S d).length + i) (by omega)
          rwa [show n + ((pendingFor S d).length + i) =
            n + (pendingFor S d).length + i by omega] at this
        rw [h1]
        apply lookupKey_mvEntries_none
        intro j hj heq
        have := hinj ((pendingFor S d).length + i) j (by omega) (by omega)
          (by rw [show n + ((pendingFor S d).length + i) =
                n + (pendingFor S d).length + i by omega, ← heq])
        omega
    have hinj' : ∀ i j, i < pendCount (processDate tstr ids (S, n, c) d).1 L →
        j < pendCount (processDate tstr ids (S, n, c) d).1 L →
        ids ((processDate tstr ids (S, n, c) d).2.1 + i) =
          ids ((processDate tstr ids (S, n, c) d).2.1 + j) → i = j := by
      intro i j hi hj heq
      rw [hpc] at hi hj
      rw [PD1] at heq
      have := hinj ((pendingFor S d).length + i) ((pendingFor S d).length + j)
        (by omega) (by omega)
        (by rw [show n + ((pendingFor S d).length + i) =
              n + (pendingFor S d).length + i by omega,
            show n + ((pendingFor S d).length + j) =
              n + (pendingFor S d).length + j by omega]; exact heq)
      omega
    obtain ⟨IA, IB, IC1, IC2, ID1, ID2, IE1, IE2⟩ :=
      ih (processDate tstr ids (S, n, c) d) htL' hnd' PE1 PE2 hfresh' hinj'
    rw [List.foldl_cons]
    refine ⟨?_, ?_, ?_, ?_, ?_, ?_, IE1, IE2⟩
    · intro k hkL hkt
      have hk1 : k ∉ L := fun hh => hkL (List.mem_cons_of_mem _ hh)
      have hk2 : k ≠ d := fun hh => hkL (hh ▸ List.mem_cons_self _ _)
      rw [IA k hk1 hkt, PA k hkt hk2]
    · intro k hkL
      rcases List.mem_cons.mp hkL with hkd | hkL'
      · subst hkd
        rw [IA k hdL hdt, PB]
      · have hkd : k ≠ d := fun hh => hdL (hh ▸ hkL')
        have hkt : k ≠ tstr := fun hh => htL' (hh ▸ hkL')
        rw [IB k hkL', PA k hkt hkd]
    · intro hE
      simp only [rolloverEntries] at hE
      have h1 : mvEntries ids d n (pendingFor S d) = [] := by
        rcases List.append_eq_nil.mp hE with ⟨h1, _⟩
        exact h1
      have h2 : rolloverEntries ids S (n + (pendingFor S d).length) L = [] := by
        rcases List.append_eq_nil.mp hE with ⟨_, h2⟩
        exact h2
      have hp : pendingFor S d = [] := (mvEntries_eq_nil_iff _ _ _ _).mp h1
      have hE'' : rolloverEntries ids (processDate tstr ids (S, n, c) d).1
          (processDate tstr ids (S, n, c) d).2.1 L = [] := by
        rw [hre, PD1, hp]
        simpa [hp] using h2
      rw [IC1 hE'', PC1 hp]
    · intro hE
      simp only [rolloverEntries] at hE ⊢
      have hEgen : rolloverEntries ids (processDate tstr ids (S, n, c) d).1
          (processDate tstr ids (S, n, c) d).2.1 L =
          rolloverEntries ids S (n + (pendingFor S d).length) L := by
        rw [hre, PD1]
      by_cases hp : pendingFor S d = []
      · have hmv : mvEntries ids d n (pendingFor S d) = [] := by rw [hp]; rfl
        have hE' : rolloverEntries ids S (n + (pendingFor S d).length) L ≠ [] := by
          intro hh
          exact hE (by rw [hmv, hh]; rfl)
        have := IC2 (by rw [hEgen]; exact hE')
        rw [this, hEgen, PC1 hp, hmv]
        simp
      · have := PC2 hp
        by_cases hE' : rolloverEntries ids S (n + (pendingFor S d).length) L = []
        · rw [IC1 (by rw [hEgen]; exact hE'), PC2 hp, hE']
          simp
        · rw [IC2 (by rw [hEgen]; exact hE'), hEgen, PC2 hp]
          simp only [Option.getD_some]
          rw [List.append_assoc]
    · show (List.foldl (processDate tstr ids) (processDate tstr ids (S, n, c) d) L).2.1 =
        n + pendCount S (d :: L)
      rw [ID1, PD1, hpc, hm]
      omega
    · show (List.foldl (processDate tstr ids) (processDate tstr ids (S, n, c) d) L).2.2 =
        c + pendCount S (d :: L)
      rw [ID2, PD2, hpc, hm]
      omega

theorem processDate_lookup_other {k tstr d : String} (ids : Nat → String)
    (acc : Store × Nat × Nat) (hkt : k ≠ tstr) (hkd : k ≠ d) :
    lookupKey k (processDate tstr ids acc d).1 = lookupKey k acc.1 := by
  unfold processDate
  cases hhk : hasKey d acc.1 with
  | false => simp [hhk]
  | true =>
    simp only [hhk, if_true]
    have hf := foldl_moveOne_lookup_other ids hkt hkd
      (((lookupKey d acc.1).getD []).filter fun q => !q.2.completed) acc
    cases hemp : ((lookupKey d (((((lookupKey d acc.1).getD []).filter
        fun q => !q.2.completed)).foldl (moveOne tstr d ids) acc).1).getD []).isEmpty with
    | true =>
      simp only [hemp, if_true]
      rw [lookupKey_eraseKey_ne _ hkd]
      exact hf
    | false =>
      simp only [hemp, Bool.false_eq_true, if_false]
      exact hf

theorem foldl_processDate_other {k tstr : String} (ids : Nat → String) (hkt : k ≠ tstr) :
    ∀ (L : List String) (acc : Store × Nat × Nat), k ∉ L →
      lookupKey k (L.foldl (processDate tstr ids) acc).1 = lookupKey k acc.1 := by
  intro L
  induction L with
  | nil => intro acc _; rfl
  | cons d L ih =>
    intro acc hkL
    have hkd : k ≠ d := fun hh => hkL (hh ▸ List.mem_cons_self _ _)
    rw [List.foldl_cons, ih _ (fun hh => hkL (List.mem_cons_of_mem _ hh))]
    exact processDate_lookup_other ids acc hkt hkd

theorem before_irrefl (d : Date) : Date.before d d = false := by
  simp [Date.before]

theorem mem_datesToCheck {tasks : Store} {today : Date} {k : String} :
    k ∈ datesToCheck tasks today ↔
      k ∈ tasks.map Prod.fst ∧ ∃ dd, parseDate k = some dd ∧ Date.before dd today = true := by
  unfold datesToCheck
  rw [List.mem_filter]
  constructor
  · rintro ⟨h1, h2⟩
    refine ⟨h1, ?_⟩
    cases hpk : parseDate k with
    | none => rw [hpk] at h2; simp at h2
    | some dd =>
      rw [hpk] at h2
      exact ⟨dd, rfl, h2⟩
  · rintro ⟨h1, dd, h2, h3⟩
    exact ⟨h1, by rw [h2]; exact h3⟩

theorem today_not_mem_datesToCheck {tasks : Store} {today : Date} {tstr : String}
    (ht : parseDate tstr = some today) : tstr ∉ datesToCheck tasks today := by
  intro hmem
  obtain ⟨_, dd, h2, h3⟩ := mem_datesToCheck.mp hmem
  rw [ht] at h2
  obtain rfl : today = dd := by injection h2
  rw [before_irrefl] at h3
  exact Bool.false_ne_true h3

theorem datesToCheck_nodup {tasks : Store} (today : Date) (hk : keysNodup tasks) :
    (datesToCheck tasks today).Nodup :=
  List.Nodup.filter _ hk

/-- Number of tasks that `move_incomplete_tasks` will collect: the sum of
the incomplete-task counts of all past-dated buckets. -/
def rolloverCount (tasks : Store) (today : Date) : Nat :=
  pendCount tasks (datesToCheck tasks today)

/-- Freshness of the modelled `uuid.uuid4()` stream: the ids consumed by
one rollover run are pairwise distinct and distinct from every task id
already in the store. -/
def FreshIds (ids : Nat → String) (tasks : Store) (today : Date) : Prop :=
  (∀ i, i < rolloverCount tasks today → ids i ∉ allTaskIds tasks) ∧
  (∀ i, i < rolloverCount tasks today → ∀ j, j < rolloverCount tasks today →
    ids i = ids j → i = j)

instance (ids : Nat → String) (tasks : Store) (today : Date) :
    Decidable (FreshIds ids tasks today) := by
  unfold FreshIds
  infer_instance

theorem freshIds_lookup_none (tstr : String) {ids : Nat → String} {tasks : Store}
    {today : Date} (hf : FreshIds ids tasks today) :
    ∀ i, i < rolloverCount tasks today →
      lookupKey (ids i) ((lookupKey tstr tasks).getD []) = none := by
  intro i hi
  cases hbt : lookupKey tstr tasks with
  | none => rfl
  | some bt =>
    simp only [Option.getD_some]
    cases hx : lookupKey (ids i) bt with
    | none => rfl
    | some v =>
      exfalso
      apply hf.1 i hi
      exact mem_allTaskIds hbt (List.mem_map.mpr ⟨(ids i, v), lookupKey_mem hx, rfl⟩)

/-- Full characterisation of `move_incomplete_tasks`: what every key of
the store maps to after the rollover, plus the moved count and the dict
invariants of the result. -/
theorem rollover_char (tasks : Store) (today : Date) (tstr : String) (ids : Nat → String)
    (hk : keysNodup tasks) (hb : ∀ p ∈ tasks, keysNodup p.2)
    (ht : parseDate tstr = some today) (hf : FreshIds ids tasks today) :
    (∀ k, k ∉ datesToCheck tasks today → k ≠ tstr →
      lookupKey k (move_incomplete_tasks tasks today tstr ids).1 = lookupKey k tasks) ∧
    (∀ k, k ∈ datesToCheck tasks today →
      lookupKey k (move_incomplete_tasks tasks today tstr ids).1 =
        match lookupKey k tasks with
        | none => none
        | some b =>
          if (b.filter fun q => q.2.completed).isEmpty = true then none
          else some (b.filter fun q => q.2.completed)) ∧
    (rolloverEntries ids tasks 0 (datesToCheck tasks today) = [] →
      lookupKey tstr (move_incomplete_tasks tasks today tstr ids).1 =
        lookupKey tstr tasks) ∧
    (rolloverEntries ids tasks 0 (datesToCheck tasks today) ≠ [] →
      lookupKey tstr (move_incomplete_tasks tasks today tstr ids).1 =
        some ((lookupKey tstr tasks).getD [] ++
          rolloverEntries ids tasks 0 (datesToCheck tasks today))) ∧
    ((move_incomplete_tasks tasks today tstr ids).2 = rolloverCount tasks today) ∧
    keysNodup (move_incomplete_tasks tasks today tstr ids).1 ∧
    (∀ p ∈ (move_incomplete_tasks tasks today tstr ids).1, keysNodup p.2) := by
  have hfr : ∀ i, i < pendCount (tasks, 0, 0).1 (datesToCheck tasks today) →
      lookupKey (ids ((tasks, 0, 0).2.1 + i))
        ((lookupKey tstr (tasks, 0, 0).1).getD []) = none := by
    intro i hi
    show lookupKey (ids (0 + i)) ((lookupKey tstr tasks).getD []) = none
    rw [Nat.zero_add]
    exact freshIds_lookup_none tstr hf i hi
  have hij : ∀ i j, i < pendCount (tasks, 0, 0).1 (datesToCheck tasks today) →
      j < pendCount (tasks, 0, 0).1 (datesToCheck tasks today) →
      ids ((tasks, 0, 0).2.1 + i) = ids ((tasks, 0, 0).2.1 + j) → i = j := by
    intro i j hi hj heq
    rw [show (tasks, (0 : Nat), (0 : Nat)).2.1 + i = i from Nat.zero_add i,
      show (tasks, (0 : Nat), (0 : Nat)).2.1 + j = j from Nat.zero_add j] at heq
    exact hf.2 i hi j hj heq
  obtain ⟨A, B, C1, C2, D1, D2, E1, E2⟩ :=
    foldl_processDate_spec tstr ids (datesToCheck tasks today) (tasks, 0, 0)
      (today_not_mem_datesToCheck ht) (datesToCheck_nodup today hk) hk hb hfr hij
  refine ⟨A, B, ?_, ?_, ?_, E1, E2⟩
  · intro hE
    exact C1 (by simpa using hE)
  · intro hE
    exact C2 (by simpa using hE)
  · show (List.foldl (processDate tstr ids) (tasks, 0, 0) (datesToCheck tasks today)).2.2 =
      rolloverCount tasks today
    rw [D2]
    simp [rolloverCount]

theorem mvEntries_getElem_keys (ids : Nat → String) (d : String) :
    ∀ (ts : List (String × Task)) (n i : Nat) (e : String × Task),
      (mvEntries ids d n ts)[i]? = some e → e.1 = ids (n + i) := by
  intro ts
  induction ts with
  | nil => intro n i e h; simp [mvEntries] at h
  | cons q ts ih =>
    intro n i e h
    cases i with
    | zero =>
      simp only [mvEntries, List.getElem?_cons_zero, Option.some.injEq] at h
      rw [← h, Nat.add_zero]
    | succ i' =>
      simp only [mvEntries, List.getElem?_cons_succ] at h
      rw [ih (n + 1) i' e h]
      congr 1
      omega

theorem mvEntries_getElem_of_mem (ids : Nat → String) (d : String) :
    ∀ (ts : List (String × Task)) (n : Nat) (tid : String) (t : Task), (tid, t) ∈ ts →
      ∃ i, i < ts.length ∧
        (mvEntries ids d n ts)[i]? = some (ids (n + i), { t with moved_from := some d }) := by
  intro ts
  induction ts with
  | nil => intro n tid t h; simp at h
  | cons q ts ih =>
    intro n tid t h
    rcases List.mem_cons.mp h with hq | hq
    · refine ⟨0, by simp, ?_⟩
      rw [← hq]
      simp [mvEntries]
    · obtain ⟨i', hi', hget⟩ := ih (n + 1) tid t hq
      refine ⟨i' + 1, Nat.succ_lt_succ hi', ?_⟩
      simp only [mvEntries, List.getElem?_cons_succ]
      rw [show n + (i' + 1) = n + 1 + i' by omega]
      exact hget

theorem rolloverEntries_getElem_keys (ids : Nat → String) (S : Store) :
    ∀ (L : List String) (n i : Nat) (e : String × Task),
      (rolloverEntries ids S n L)[i]? = some e → e.1 = ids (n + i) := by
  intro L
  induction L with
  | nil => intro n i e h; simp [rolloverEntries] at h
  | cons d L ih =>
    intro n i e h
    simp only [rolloverEntries] at h
    by_cases hi : i < (mvEntries ids d n (pendingFor S d)).length
    · rw [List.getElem?_append_left hi] at h
      exact mvEntries_getElem_keys ids d _ n i e h
    · rw [List.getElem?_append_right (by omega)] at h
      have := ih (n + (pendingFor S d).length) (i - (mvEntries ids d n (pendingFor S d)).length)
        e h
      rw [this]
      rw [mvEntries_length] at hi ⊢
      congr 1
      omega

theorem rolloverEntries_getElem_of_pending (ids : Nat → String) (S : Store) :
    ∀ (L : List String) (n : Nat) (k tid : String) (t : Task),
      k ∈ L → (tid, t) ∈ pendingFor S k →
      ∃ j, j < pendCount S L ∧
        (rolloverEntries ids S n L)[j]? = some (ids (n + j), { t with moved_from := some k }) := by
  intro L
  induction L with
  | nil => intro n k tid t h _; simp at h
  | cons d L ih =>
    intro n k tid t hkL hmem
    have hm : pendCount S (d :: L) = (pendingFor S d).length + pendCount S L := by
      simp [pendCount, List.map_cons, List.sum_cons]
    rcases List.mem_cons.mp hkL with hkd | hkL'
    · subst hkd
      obtain ⟨i, hi, hget⟩ := mvEntries_getElem_of_mem ids k (pendingFor S k) n tid t hmem
      refine ⟨i, by rw [hm]; omega, ?_⟩
      simp only [rolloverEntries]
      rw [List.getElem?_append_left (by rw [mvEntries_length]; exact hi)]
      exact hget
    · obtain ⟨j', hj', hget⟩ := ih (n + (pendingFor S d).length) k tid t hkL' hmem
      refine ⟨(pendingFor S d).length + j', by rw [hm]; omega, ?_⟩
      simp only [rolloverEntries]
      rw [List.getElem?_append_right (by rw [mvEntries_length]; omega)]
      rw [mvEntries_length]
      rw [show (pendingFor S d).length + j' - (pendingFor S d).length = j' by omega]
      rw [show n + ((pendingFor S d).length + j') = n + (pendingFor S d).length + j' by omega]
      exact hget

theorem lookupKey_entries (ids : Nat → String) :
    ∀ (E : List (String × Task)) (n : Nat),
      (∀ i e, E[i]? = some e → e.1 = ids (n + i)) →
      (∀ i i', i < E.length → i' < E.length → ids (n + i) = ids (n + i') → i = i') →
      ∀ (j : Nat) (v : Task), E[j]? = some (ids (n + j), v) →
        lookupKey (ids (n + j)) E = some v := by
  intro E
  induction E with
  | nil => intro n _ _ j v h; simp at h
  | cons e E ih =>
    intro n hkeys hinj j v h
    have he : e.1 = ids (n + 0) := hkeys 0 e (by simp)
    cases j with
    | zero =>
      simp only [List.getElem?_cons_zero, Option.some.injEq] at h
      subst h
      simp [lookupKey]
    | succ j' =>
      simp only [List.getElem?_cons_succ] at h
      have hjlen : j' < E.length := by
        by_contra hcon
        rw [List.getElem?_eq_none (by omega)] at h
        exact absurd h (by simp)
      have hne : ¬ e.1 = ids (n + (j' + 1)) := by
        rw [he]
        intro heq
        have := hinj 0 (j' + 1) (by simp) (Nat.succ_lt_succ hjlen) heq
        omega
      simp only [lookupKey, hne, if_false]
      have hkeys' : ∀ i e', E[i]? = some e' → e'.1 = ids (n + 1 + i) := by
        intro i e' hi
        have := hkeys (i + 1) e' (by simpa using hi)
        rwa [show n + (i + 1) = n + 1 + i by omega] at this
      have hinj' : ∀ i i', i < E.length → i' < E.length →
          ids (n + 1 + i) = ids (n + 1 + i') → i = i' := by
        intro i i' hi hi' heq
        have := hinj (i + 1) (i' + 1) (Nat.succ_lt_succ hi) (Nat.succ_lt_succ hi')
          (by rwa [show n + (i + 1) = n + 1 + i by omega,
                show n + (i' + 1) = n + 1 + i' by omega])
        omega
      have h' : E[j']? = some (ids (n + 1 + j'), v) := by
        rw [show n + 1 + j' = n + (j' + 1) by omega]
        exact h
      have := ih (n + 1) hkeys' hinj' j' v h'
      rwa [show n + 1 + j' = n + (j' + 1) by omega] at this

/-- The bucket of every key that parses to a date strictly before `today`
after a rollover: only its completed tasks remain, and the bucket itself
is removed exactly when no completed task remains. -/
theorem rollover_past_bucket (tasks : Store) (today : Date) (tstr : String)
    (ids : Nat → String) (hk : keysNodup tasks) (hb : ∀ p ∈ tasks, keysNodup p.2)
    (ht : parseDate tstr = some today) (hf : FreshIds ids tasks today) :
    ∀ k dd, parseDate k = some dd → Date.before dd today = true →
      lookupKey k (move_incomplete_tasks tasks today tstr ids).1 =
        match lookupKey k tasks with
        | none => none
        | some b =>
          if (b.filter fun q => q.2.completed).isEmpty = true then none
          else some (b.filter fun q => q.2.completed) := by
  obtain ⟨A, B, C1, C2, D1, E1, E2⟩ := rollover_char tasks today tstr ids hk hb ht hf
  intro k dd hp hbef
  have hkt : k ≠ tstr := by
    intro hh
    rw [hh, ht] at hp
    obtain rfl : today = dd := by injection hp
    rw [before_irrefl] at hbef
    exact Bool.false_ne_true hbef
  by_cases hmem : k ∈ datesToCheck tasks today
  · exact B k hmem
  · have hnk : k ∉ tasks.map Prod.fst := by
      intro hkk
      exact hmem (mem_datesToCheck.mpr ⟨hkk, dd, hp, hbef⟩)
    rw [A k hmem hkt, lookupKey_eq_none_of_not_mem hnk]

/-! ### Claim theorems -/

/-- Claim C1: for every store and past-dated bucket, the rollover replaces
each incomplete task by a fresh-id copy in `asOfDate`'s bucket (all fields
copied, `moved_from` set to the source date, new id distinct from the
original) and deletes the original; completed tasks of past buckets stay
in place, and a source bucket left empty is removed.  Conjunct one gives
the full shape of every past bucket after the call (completed tasks only;
the bucket itself removed exactly when nothing completed remains),
conjunct two the deletion of each incomplete original together with its
fresh-id copy in today's bucket, conjunct three the preservation of each
completed task. -/
theorem C1_rollover_moves_incomplete (tasks : Store) (today : Date) (tstr : String)
    (ids : Nat → String) (hk : keysNodup tasks) (hb : ∀ p ∈ tasks, keysNodup p.2)
    (ht : parseDate tstr = some today) (hf : FreshIds ids tasks today) :
    (∀ k dd, parseDate k = some dd → Date.before dd today = true →
      lookupKey k (move_incomplete_tasks tasks today tstr ids).1 =
        match lookupKey k tasks with
        | none => none
        | some b =>
          if (b.filter fun q => q.2.completed).isEmpty = true then none
          else some (b.filter fun q => q.2.completed)) ∧
    (∀ k dd b tid t, parseDate k = some dd → Date.before dd today = true →
      lookupKey k tasks = some b → lookupKey tid b = some t → t.completed = false →
      lookupTask (move_incomplete_tasks tasks today tstr ids).1 k tid = none ∧
      ∃ j, j < rolloverCount tasks today ∧ ids j ≠ tid ∧
        lookupKey (ids j)
          ((lookupKey tstr (move_incomplete_tasks tasks today tstr ids).1).getD []) =
          some { t with moved_from := some k }) ∧
    (∀ k dd b tid t, parseDate k = some dd → Date.before dd today = true →
      lookupKey k tasks = some b → lookupKey tid b = some t → t.completed = true →
      lookupTask (move_incomplete_tasks tasks today tstr ids).1 k tid = some t) := by
  obtain ⟨A, B, C1, C2, D1, E1, E2⟩ := rollover_char tasks today tstr ids hk hb ht hf
  have hpast := rollover_past_bucket tasks today tstr ids hk hb ht hf
  refine ⟨hpast, ?_, ?_⟩
  · intro k dd b tid t hp hbef hkb htid hcomp
    have hbnd : keysNodup b := by simpa using hb (k, b) (lookupKey_mem hkb)
    have hmemD : k ∈ datesToCheck tasks today :=
      mem_datesToCheck.mpr ⟨List.mem_map.mpr ⟨(k, b), lookupKey_mem hkb, rfl⟩, dd, hp, hbef⟩
    constructor
    · unfold lookupTask
      have hval : lookupKey k (move_incomplete_tasks tasks today tstr ids).1 =
          if (b.filter fun q => q.2.completed).isEmpty = true then none
          else some (b.filter fun q => q.2.completed) := by
        rw [hpast k dd hp hbef, hkb]
      rw [hval]
      rcases Bool.eq_false_or_eq_true ((b.filter fun q => q.2.completed).isEmpty)
        with hemp | hemp
      · rw [if_pos hemp]
        rfl
      · have hemp' : ¬ (b.filter fun q => q.2.completed).isEmpty = true := by simp [hemp]
        rw [if_neg hemp']
        simp only [Option.some_bind]
        rw [lookupKey_filter _ hbnd, htid]
        simp [hcomp]
    · have hpend : (tid, t) ∈ pendingFor tasks k := by
        unfold pendingFor
        rw [hkb]
        simp only [Option.getD_some]
        rw [List.mem_filter]
        exact ⟨lookupKey_mem htid, by simp [hcomp]⟩
      obtain ⟨j, hj, hget⟩ := rolloverEntries_getElem_of_pending ids tasks
        (datesToCheck tasks today) 0 k tid t hmemD hpend
      have hjc : j < rolloverCount tasks today := by
        unfold rolloverCount
        exact hj
      have hlen : (rolloverEntries ids tasks 0 (datesToCheck tasks today)).length =
          rolloverCount tasks today := rolloverEntries_length ids tasks _ 0
      have hEne : rolloverEntries ids tasks 0 (datesToCheck tasks today) ≠ [] := by
        intro hh
        rw [hh] at hlen
        simp at hlen
        omega
      refine ⟨j, hjc, ?_, ?_⟩
      · intro heq
        apply hf.1 j hjc
        rw [heq]
        exact mem_allTaskIds hkb (List.mem_map.mpr ⟨(tid, t), lookupKey_mem htid, rfl⟩)
      · rw [C2 hEne]
        simp only [Option.getD_some]
        rw [lookupKey_append]
        have hbt : lookupKey (ids j) ((lookupKey tstr tasks).getD []) = none := by
          exact freshIds_lookup_none tstr hf j hjc
        rw [hbt]
        have hkeys : ∀ i e, (rolloverEntries ids tasks 0 (datesToCheck tasks today))[i]? =
            some e → e.1 = ids (0 + i) :=
          fun i e hh => rolloverEntries_getElem_keys ids tasks _ 0 i e hh
        have hinj : ∀ i i',
            i < (rolloverEntries ids tasks 0 (datesToCheck tasks today)).length →
            i' < (rolloverEntries ids tasks 0 (datesToCheck tasks today)).length →
            ids (0 + i) = ids (0 + i') → i = i' := by
          intro i i' hi hi' heq
          rw [hlen] at hi hi'
          rw [Nat.zero_add, Nat.zero_add] at heq
          exact hf.2 i hi i' hi' heq
        have hget0 : (rolloverEntries ids tasks 0 (datesToCheck tasks today))[j]? =
            some (ids (0 + j), { t with moved_from := some k }) := hget
        have := lookupKey_entries ids _ 0 hkeys hinj j _ hget0
        rwa [Nat.zero_add] at this
  · intro k dd b tid t hp hbef hkb htid hcomp
    have hbnd : keysNodup b := by simpa using hb (k, b) (lookupKey_mem hkb)
    unfold lookupTask
    have hval : lookupKey k (move_incomplete_tasks tasks today tstr ids).1 =
        if (b.filter fun q => q.2.completed).isEmpty = true then none
        else some (b.filter fun q => q.2.completed) := by
      rw [hpast k dd hp hbef, hkb]
    rw [hval]
    have hne : ¬ (b.filter fun q => q.2.completed).isEmpty = true := by
      have hmm : (tid, t) ∈ b.filter fun q => q.2.completed := by
        rw [List.mem_filter]
        exact ⟨lookupKey_mem htid, by simp [hcomp]⟩
      intro hh
      rw [List.isEmpty_iff] at hh
      rw [hh] at hmm
      exact absurd hmm (List.not_mem_nil _)
    rw [if_neg hne]
    simp only [Option.some_bind]
    rw [lookupKey_filter _ hbnd, htid]
    simp [hcomp]

theorem exists_lookupKey_of_mem_keys {α : Type} {k : String} {l : List (String × α)}
    (h : k ∈ l.map Prod.fst) : ∃ v, lookupKey k l = some v := by
  induction l with
  | nil => simp at h
  | cons p rest ih =>
    obtain ⟨a, b⟩ := p
    by_cases ha : a = k
    · exact ⟨b, by simp [lookupKey, ha]⟩
    · simp only [List.map_cons, List.mem_cons] at h
      rcases h with h | h
      · exact absurd h.symm ha
      · obtain ⟨v, hv⟩ := ih h
        exact ⟨v, by simp [lookupKey, ha, hv]⟩

theorem processDate_id (tstr : String) (ids : Nat → String) (d : String)
    (acc : Store × Nat × Nat)
    (h : match lookupKey d acc.1 with
         | none => True
         | some b => (b.filter fun q => !q.2.completed) = [] ∧ b.isEmpty = false) :
    processDate tstr ids acc d = acc := by
  unfold processDate
  cases hdk : lookupKey d acc.1 with
  | none =>
    have hhk : hasKey d acc.1 = false := by unfold hasKey; rw [hdk]; rfl
    simp [hhk]
  | some b =>
    rw [hdk] at h
    have h' : (b.filter fun q => !q.2.completed) = [] ∧ b.isEmpty = false := h
    have hhk : hasKey d acc.1 = true := by unfold hasKey; rw [hdk]; rfl
    simp only [hhk, if_true, hdk, Option.getD_some, h'.1, List.foldl_nil]
    simp [h'.2]

theorem foldl_processDate_id (tstr : String) (ids : Nat → String) :
    ∀ (L : List String) (acc : Store × Nat × Nat),
      (∀ k ∈ L, match lookupKey k acc.1 with
        | none => True
        | some b => (b.filter fun q => !q.2.completed) = [] ∧ b.isEmpty = false) →
      L.foldl (processDate tstr ids) acc = acc := by
  intro L
  induction L with
  | nil => intro acc _; rfl
  | cons d L ih =>
    intro acc h
    rw [List.foldl_cons, processDate_id tstr ids d acc (h d (List.mem_cons_self _ _))]
    exact ih acc (fun k hk => h k (List.mem_cons_of_mem _ hk))

/-- Claim C4: the rollover is idempotent within one logical day.  After
one call no bucket dated strictly before `today` contains an incomplete
task (conjunct one); `today`'s own bucket is never scanned, because the
scan keeps only dates strictly before `today` (conjunct two); and a
second call with the same `today` — whatever uuids it would draw — moves
zero tasks and returns the store unchanged (conjunct three). -/
theorem C4_rollover_idempotent (tasks : Store) (today : Date) (tstr : String)
    (ids : Nat → String) (hk : keysNodup tasks) (hb : ∀ p ∈ tasks, keysNodup p.2)
    (ht : parseDate tstr = some today) (hf : FreshIds ids tasks today) :
    (∀ k dd tid t, parseDate k = some dd → Date.before dd today = true →
      lookupTask (move_incomplete_tasks tasks today tstr ids).1 k tid = some t →
      t.completed = true) ∧
    (tstr ∉ datesToCheck tasks today) ∧
    (∀ ids2 : Nat → String,
      move_incomplete_tasks (move_incomplete_tasks tasks today tstr ids).1 today tstr ids2 =
        ((move_incomplete_tasks tasks today tstr ids).1, 0)) := by
  have hpast := rollover_past_bucket tasks today tstr ids hk hb ht hf
  have honlyC : ∀ k dd, parseDate k = some dd → Date.before dd today = true →
      ∀ bc, lookupKey k (move_incomplete_tasks tasks today tstr ids).1 = some bc →
      (∀ q ∈ bc, q.2.completed = true) ∧ bc.isEmpty = false := by
    intro k dd hp hbef bc hbc
    rw [hpast k dd hp hbef] at hbc
    cases hkv : lookupKey k tasks with
    | none => rw [hkv] at hbc; exact absurd hbc (by simp)
    | some b =>
      rw [hkv] at hbc
      have hbc' : (if (b.filter fun q => q.2.completed).isEmpty = true then none
          else some (b.filter fun q => q.2.completed)) = some bc := hbc
      rcases Bool.eq_false_or_eq_true ((b.filter fun q => q.2.completed).isEmpty)
        with hemp | hemp
      · rw [if_pos hemp] at hbc'
        exact absurd hbc' (by simp)
      · have hemp' : ¬ (b.filter fun q => q.2.completed).isEmpty = true := by simp [hemp]
        rw [if_neg hemp'] at hbc'
        obtain rfl : b.filter (fun q => q.2.completed) = bc := by injection hbc'
        exact ⟨fun q hq => (List.mem_filter.mp hq).2, hemp⟩
  refine ⟨?_, today_not_mem_datesToCheck ht, ?_⟩
  · intro k dd tid t hp hbef hlt
    unfold lookupTask at hlt
    cases hbc : lookupKey k (move_incomplete_tasks tasks today tstr ids).1 with
    | none => rw [hbc] at hlt; exact absurd hlt (by simp)
    | some bc =>
      rw [hbc] at hlt
      simp only [Option.some_bind] at hlt
      exact (honlyC k dd hp hbef bc hbc).1 (tid, t) (lookupKey_mem hlt)
  · intro ids2
    have hfix : ∀ k ∈ datesToCheck (move_incomplete_tasks tasks today tstr ids).1 today,
        match lookupKey k (move_incomplete_tasks tasks today tstr ids).1 with
        | none => True
        | some b => (b.filter fun q => !q.2.completed) = [] ∧ b.isEmpty = false := by
      intro k hkD
      obtain ⟨hkk, dd, hp, hbef⟩ := mem_datesToCheck.mp hkD
      obtain ⟨bc, hbc⟩ := exists_lookupKey_of_mem_keys hkk
      rw [hbc]
      obtain ⟨hall, hne⟩ := honlyC k dd hp hbef bc hbc
      exact ⟨List.filter_eq_nil_iff.mpr (fun q hq => by simp [hall q hq]), hne⟩
    have h2 := foldl_processDate_id tstr ids2
      (datesToCheck (move_incomplete_tasks tasks today tstr ids).1 today)
      ((move_incomplete_tasks tasks today tstr ids).1, 0, 0) hfix
    show (((datesToCheck (move_incomplete_tasks tasks today tstr ids).1 today).foldl
        (processDate tstr ids2) ((move_incomplete_tasks tasks today tstr ids).1, 0, 0)).1,
      ((datesToCheck (move_incomplete_tasks tasks today tstr ids).1 today).foldl
        (processDate tstr ids2) ((move_incomplete_tasks tasks today tstr ids).1, 0, 0)).2.2) =
        ((move_incomplete_tasks tasks today tstr ids).1, 0)
    rw [h2]

/-- Witness for C1 at a concrete store: one past bucket
`2025-06-10` holding an incomplete task `a` and a completed task `b`;
after `move_incomplete_tasks` on `2025-06-15` the original `a` is gone
from the past bucket and a copy with the fresh id `n0` and
`moved_from = 2025-06-10` sits in today's bucket. -/
theorem C1_rollover_moves_incomplete_witness :
    lookupTask (move_incomplete_tasks
      [("2025-06-10", [("a", ⟨"A", "", "High", false, "c1", none, none⟩),
                       ("b", ⟨"B", "", "Low", true, "c2", none, none⟩)])]
      ⟨2025, 6, 15⟩ "2025-06-15" (fun _ => "n0")).1 "2025-06-10" "a" = none ∧
    lookupKey "n0" ((lookupKey "2025-06-15" (move_incomplete_tasks
      [("2025-06-10", [("a", ⟨"A", "", "High", false, "c1", none, none⟩),
                       ("b", ⟨"B", "", "Low", true, "c2", none, none⟩)])]
      ⟨2025, 6, 15⟩ "2025-06-15" (fun _ => "n0")).1).getD []) =
      some ⟨"A", "", "High", false, "c1", none, some "2025-06-10"⟩ := by
  obtain ⟨h1, j, hj, hne, hl⟩ :=
    (C1_rollover_moves_incomplete
      [("2025-06-10", [("a", ⟨"A", "", "High", false, "c1", none, none⟩),
                       ("b", ⟨"B", "", "Low", true, "c2", none, none⟩)])]
      ⟨2025, 6, 15⟩ "2025-06-15" (fun _ => "n0")
      (by decide) (by decide) (by decide) (by decide)).2.1
      "2025-06-10" ⟨2025, 6, 10⟩
      [("a", ⟨"A", "", "High", false, "c1", none, none⟩),
       ("b", ⟨"B", "", "Low", true, "c2", none, none⟩)]
      "a" ⟨"A", "", "High", false, "c1", none, none⟩
      (by decide) (by decide) (by decide) (by decide) (by decide)
  exact ⟨h1, hl⟩

/-- Witness for C4 at a concrete store: the second rollover call moves
nothing and returns the store of the first call unchanged. -/
theorem C4_rollover_idempotent_witness :
    move_incomplete_tasks
      (move_incomplete_tasks
        [("2025-06-10", [("a", ⟨"A", "", "High", false, "c1", none, none⟩),
                         ("b", ⟨"B", "", "Low", true, "c2", none, none⟩)])]
        ⟨2025, 6, 15⟩ "2025-06-15" (fun _ => "n0")).1
      ⟨2025, 6, 15⟩ "2025-06-15" (fun _ => "zz") =
    ((move_incomplete_tasks
        [("2025-06-10", [("a", ⟨"A", "", "High", false, "c1", none, none⟩),
                         ("b", ⟨"B", "", "Low", true, "c2", none, none⟩)])]
        ⟨2025, 6, 15⟩ "2025-06-15" (fun _ => "n0")).1, 0) :=
  (C4_rollover_idempotent
    [("2025-06-10", [("a", ⟨"A", "", "High", false, "c1", none, none⟩),
                     ("b", ⟨"B", "", "Low", true, "c2", none, none⟩)])]
    ⟨2025, 6, 15⟩ "2025-06-15" (fun _ => "n0")
    (by decide) (by decide) (by decide) (by decide)).2.2 (fun _ => "zz")

/-- Claim C10: a store key that does not parse as a `%Y-%m-%d` date is
skipped by the rollover scan (`except ValueError: continue`), so its
bucket — tasks included — is exactly what it was before the call; the
call itself is a total function, so it cannot fail on such stores. -/
theorem C10_rollover_skips_malformed (tasks : Store) (today : Date) (tstr : String)
    (ids : Nat → String) (ht : parseDate tstr = some today) (k : String)
    (hkp : parseDate k = none) :
    lookupKey k (move_incomplete_tasks tasks today tstr ids).1 = lookupKey k tasks := by
  have hkt : k ≠ tstr := by
    intro hh
    rw [hh, ht] at hkp
    exact absurd hkp (by simp)
  have hkD : k ∉ datesToCheck tasks today := by
    intro hm
    obtain ⟨_, dd, h2, _⟩ := mem_datesToCheck.mp hm
    rw [hkp] at h2
    exact absurd h2 (by simp)
  show lookupKey k
    ((datesToCheck tasks today).foldl (processDate tstr ids) (tasks, 0, 0)).1 =
    lookupKey k tasks
  exact foldl_processDate_other ids hkt _ _ hkD

/-- Witness for C10 at a concrete store: the bucket under the malformed
key `garbage` is untouched by a rollover that does move the incomplete
task of the well-formed past date. -/
theorem C10_rollover_skips_malformed_witness :
    parseDate "garbage" = none ∧
    lookupKey "garbage" (move_incomplete_tasks
      [("garbage", [("a", ⟨"A", "", "High", false, "c1", none, none⟩)]),
       ("2025-06-10", [("b", ⟨"B", "", "High", false, "c2", none, none⟩)])]
      ⟨2025, 6, 15⟩ "2025-06-15" (fun _ => "n0")).1 =
    lookupKey "garbage"
      [("garbage", [("a", ⟨"A", "", "High", false, "c1", none, none⟩)]),
       ("2025-06-10", [("b", ⟨"B", "", "High", false, "c2", none, none⟩)])] :=
  ⟨by decide, C10_rollover_skips_malformed
    [("garbage", [("a", ⟨"A", "", "High", false, "c1", none, none⟩)]),
     ("2025-06-10", [("b", ⟨"B", "", "High", false, "c2", none, none⟩)])]
    ⟨2025, 6, 15⟩ "2025-06-15" (fun _ => "n0") (by decide) "garbage" (by decide)⟩

/-- Counterexample for C2: editing a task that does not exist raises
nothing.  On the empty store, `edit_task` silently returns the store
unchanged — its result type has no error channel at all — while the
spec-modelled `editTaskSpec` demands `NotFoundError` at the same input. -/
theorem C2_edit_missing_counterexample :
    edit_task [] "2025-01-01" "t1" "2025-01-02" "T" "High" "" "m1" = [] ∧
    editTaskSpec [] "2025-01-01" "t1" "2025-01-02" "T" "High" "" "m1" =
      Except.error TaskError.notFound :=
  ⟨rfl, rfl⟩

/-- Claim C2 as amended: when no task with the given id exists in the
bucket for `old_date_str`, `edit_task` is a silent no-op — it leaves the
store unchanged and raises no error (the source has no `NotFoundError`
path; the `if` of line 130 simply falls through). -/
theorem C2_edit_missing_is_noop (tasks : Store)
    (old_date task_id new_date title priority description now : String)
    (h : lookupTask tasks old_date task_id = none) :
    edit_task tasks old_date task_id new_date title priority description now = tasks := by
  unfold lookupTask at h
  unfold edit_task
  cases hod : lookupKey old_date tasks with
  | none => simp [hod]
  | some b =>
    rw [hod] at h
    simp only [Option.some_bind] at h
    simp [hod, h]

/-- Witness for C2's amended claim at a concrete store with one unrelated
task: editing a missing id changes nothing. -/
theorem C2_edit_missing_is_noop_witness :
    lookupTask [("2025-03-03", [("x", ⟨"X", "", "Low", false, "c0", none, none⟩)])]
      "2025-01-01" "t1" = none ∧
    edit_task [("2025-03-03", [("x", ⟨"X", "", "Low", false, "c0", none, none⟩)])]
      "2025-01-01" "t1" "2025-01-02" "T" "High" "" "m1" =
      [("2025-03-03", [("x", ⟨"X", "", "Low", false, "c0", none, none⟩)])] :=
  ⟨by decide, C2_edit_missing_is_noop
    [("2025-03-03", [("x", ⟨"X", "", "Low", false, "c0", none, none⟩)])]
    "2025-01-01" "t1" "2025-01-02" "T" "High" "" "m1" (by decide)⟩

/-- Counterexample for C3: `add_task` itself performs no validation, so
called with the empty title it inserts the task and changes the store —
the claim's "fails with ValidationError and the store is left unchanged"
is false of the function the spec names. -/
theorem C3_add_empty_title_counterexample :
    add_task [] "2025-01-10" "t1" "" "Medium" "" "ts" =
      [("2025-01-10", [("t1", ⟨"", "", "Medium", false, "ts", none, none⟩)])] ∧
    add_task [] "2025-01-10" "t1" "" "Medium" "" "ts" ≠ [] :=
  ⟨rfl, by decide⟩

/-- Claim C3 as amended: the empty-title check lives in the form handler
(lines 550-557), not in `add_task`: submitting the form with an empty
title shows an error and leaves the store unchanged, while `add_task`
itself inserts a task whatever the title — including the empty one. -/
theorem C3_empty_title_rejected_by_form (tasks : Store)
    (date_str task_id priority description now : String) :
    submit_add_task tasks date_str task_id "" priority description now = (tasks, true) ∧
    lookupTask (add_task tasks date_str task_id "" priority description now)
      date_str task_id = some ⟨"", description, priority, false, now, none, none⟩ := by
  constructor
  · unfold submit_add_task
    simp
  · unfold lookupTask add_task
    rw [lookupKey_setKey_self]
    simp only [Option.some_bind]
    rw [lookupKey_setKey_self]

/-- Claim C6: when the task exists at `old_date` and `new_date` differs,
`edit_task` relocates it atomically: the updated record (same id, new
title/priority/description, fresh `modified_at`, `moved_from` untouched)
is in `new_date`'s bucket, the id is gone from `old_date`'s bucket — the
bucket itself being dropped exactly when it became empty — and afterwards
the id lives in exactly one bucket, `new_date`'s. -/
theorem C6_edit_task_relocates (tasks : Store)
    (old_date task_id new_date title priority description now : String)
    (b : Bucket) (t : Task)
    (hk : keysNodup tasks) (hb : ∀ p ∈ tasks, keysNodup p.2)
    (hob : lookupKey old_date tasks = some b) (htid : lookupKey task_id b = some t)
    (hne : old_date ≠ new_date)
    (huniq : ∀ p ∈ tasks, p.1 ≠ old_date → lookupKey task_id p.2 = none) :
    lookupTask (edit_task tasks old_date task_id new_date title priority description now)
      new_date task_id =
      some { t with title := title, priority := priority, description := description, modified_at := some now } ∧
    (({ t with title := title, priority := priority, description := description, modified_at := some now } : Task).moved_from = t.moved_from) ∧
    lookupTask (edit_task tasks old_date task_id new_date title priority description now)
      old_date task_id = none ∧
    (lookupKey old_date
        (edit_task tasks old_date task_id new_date title priority description now) =
      if (eraseKey task_id b).isEmpty = true then none
      else some (eraseKey task_id b)) ∧
    (∀ k b', lookupKey k
        (edit_task tasks old_date task_id new_date title priority description now) =
          some b' →
      ((lookupKey task_id b').isSome = true ↔ k = new_date)) := by
  have hbnd : keysNodup b := by simpa using hb (old_date, b) (lookupKey_mem hob)
  have hR : edit_task tasks old_date task_id new_date title priority description now =
      setKey new_date (setKey task_id
        { t with title := title, priority := priority, description := description, modified_at := some now }
        ((lookupKey new_date (if (eraseKey task_id b).isEmpty then eraseKey old_date tasks
            else setKey old_date (eraseKey task_id b) tasks)).getD []))
        (if (eraseKey task_id b).isEmpty then eraseKey old_date tasks
         else setKey old_date (eraseKey task_id b) tasks) := by
    unfold edit_task
    simp only [hob, htid]
    simp [hne]
  have holdT1 : lookupKey old_date
      (if (eraseKey task_id b).isEmpty then eraseKey old_date tasks
       else setKey old_date (eraseKey task_id b) tasks) =
      if (eraseKey task_id b).isEmpty = true then none
      else some (eraseKey task_id b) := by
    rcases Bool.eq_false_or_eq_true (eraseKey task_id b).isEmpty with hbe | hbe
    · rw [if_pos hbe, if_pos hbe, lookupKey_eraseKey_self hk]
    · have hbe' : ¬ (eraseKey task_id b).isEmpty = true := by simp [hbe]
      rw [if_neg hbe', if_neg hbe', lookupKey_setKey_self]
  refine ⟨?_, rfl, ?_, ?_, ?_⟩
  · unfold lookupTask
    rw [hR, lookupKey_setKey_self]
    simp only [Option.some_bind]
    rw [lookupKey_setKey_self]
  · unfold lookupTask
    rw [hR, lookupKey_setKey_ne _ _ hne, holdT1]
    rcases Bool.eq_false_or_eq_true (eraseKey task_id b).isEmpty with hbe | hbe
    · rw [if_pos hbe]
      rfl
    · have hbe' : ¬ (eraseKey task_id b).isEmpty = true := by simp [hbe]
      rw [if_neg hbe']
      simp only [Option.some_bind]
      exact lookupKey_eraseKey_self hbnd
  · rw [hR, lookupKey_setKey_ne _ _ hne, holdT1]
  · intro k b' hkb'
    by_cases hknew : k = new_date
    · subst hknew
      rw [hR, lookupKey_setKey_self] at hkb'
      obtain rfl : setKey task_id
          { t with title := title, priority := priority, description := description, modified_at := some now }
          ((lookupKey k (if (eraseKey task_id b).isEmpty then eraseKey old_date tasks
              else setKey old_date (eraseKey task_id b) tasks)).getD []) = b' := by
        injection hkb'
      simp [lookupKey_setKey_self]
    · rw [hR, lookupKey_setKey_ne _ _ hknew] at hkb'
      simp only [hknew, iff_false]
      intro hsome
      by_cases hkold : k = old_date
      · subst hkold
        rw [holdT1] at hkb'
        rcases Bool.eq_false_or_eq_true (eraseKey task_id b).isEmpty with hbe | hbe
        · rw [if_pos hbe] at hkb'
          exact absurd hkb' (by simp)
        · have hbe' : ¬ (eraseKey task_id b).isEmpty = true := by simp [hbe]
          rw [if_neg hbe'] at hkb'
          obtain rfl : eraseKey task_id b = b' := by injection hkb'
          rw [lookupKey_eraseKey_self hbnd] at hsome
          simp at hsome
      · have hkt : lookupKey k tasks = some b' := by
          rcases Bool.eq_false_or_eq_true (eraseKey task_id b).isEmpty with hbe | hbe
          · rw [if_pos hbe] at hkb'
            rwa [lookupKey_eraseKey_ne _ hkold] at hkb'
          · have hbe' : ¬ (eraseKey task_id b).isEmpty = true := by simp [hbe]
            rw [if_neg hbe'] at hkb'
            rwa [lookupKey_setKey_ne _ _ hkold] at hkb'
        rw [huniq (k, b') (lookupKey_mem hkt) hkold] at hsome
        simp at hsome

/-- Witness for C6 at a concrete store: the only task of `2025-01-01` is
moved to `2025-02-02` with updated fields; the old bucket disappears and
the id is found only under the new date. -/
theorem C6_edit_task_relocates_witness :
    lookupKey "2025-01-01"
      [("2025-01-01", [("x", (⟨"X", "", "Low", false, "c0", none, none⟩ : Task))])] =
      some [("x", ⟨"X", "", "Low", false, "c0", none, none⟩)] ∧
    lookupTask (edit_task
      [("2025-01-01", [("x", ⟨"X", "", "Low", false, "c0", none, none⟩)])]
      "2025-01-01" "x" "2025-02-02" "Y" "High" "d" "m1") "2025-02-02" "x" =
      some ⟨"Y", "d", "High", false, "c0", some "m1", none⟩ ∧
    lookupTask (edit_task
      [("2025-01-01", [("x", ⟨"X", "", "Low", false, "c0", none, none⟩)])]
      "2025-01-01" "x" "2025-02-02" "Y" "High" "d" "m1") "2025-01-01" "x" = none := by
  have h := C6_edit_task_relocates
    [("2025-01-01", [("x", ⟨"X", "", "Low", false, "c0", none, none⟩)])]
    "2025-01-01" "x" "2025-02-02" "Y" "High" "d" "m1"
    [("x", ⟨"X", "", "Low", false, "c0", none, none⟩)]
    ⟨"X", "", "Low", false, "c0", none, none⟩
    (by decide) (by decide) (by decide) (by decide) (by decide) (by decide)
  exact ⟨by decide, h.1, h.2.2.1⟩

theorem keyLE_trans (a b c : String × Task) (h1 : keyLE a b = true) (h2 : keyLE b c = true) :
    keyLE a c = true := by
  unfold keyLE at h1 h2 ⊢
  simp only [decide_eq_true_eq] at h1 h2 ⊢
  rcases h1 with h1 | ⟨e1, h1⟩
  · rcases h2 with h2 | ⟨e2, h2⟩
    · exact Or.inl (Nat.lt_trans h1 h2)
    · exact Or.inl (e2 ▸ h1)
  · rcases h2 with h2 | ⟨e2, h2⟩
    · exact Or.inl (e1 ▸ h2)
    · refine Or.inr ⟨e1.trans e2, ?_⟩
      rcases h1 with h1 | ⟨f1, h1⟩
      · rcases h2 with h2 | ⟨f2, h2⟩
        · exact Or.inl (Nat.lt_trans h1 h2)
        · exact Or.inl (f2 ▸ h1)
      · rcases h2 with h2 | ⟨f2, h2⟩
        · exact Or.inl (f1 ▸ h2)
        · exact Or.inr ⟨f1.trans f2, le_trans h1 h2⟩

theorem keyLE_total (a b : String × Task) : (keyLE a b || keyLE b a) = true := by
  unfold keyLE
  simp only [Bool.or_eq_true, decide_eq_true_eq]
  rcases Nat.lt_trichotomy (sortKey a).1 (sortKey b).1 with h | h | h
  · exact Or.inl (Or.inl h)
  · rcases Nat.lt_trichotomy (sortKey a).2.1 (sortKey b).2.1 with h' | h' | h'
    · exact Or.inl (Or.inr ⟨h, Or.inl h'⟩)
    · rcases le_total (sortKey a).2.2 (sortKey b).2.2 with h'' | h''
      · exact Or.inl (Or.inr ⟨h, Or.inr ⟨h', h''⟩⟩)
      · exact Or.inr (Or.inr ⟨h.symm, Or.inr ⟨h'.symm, h''⟩⟩)
    · exact Or.inr (Or.inr ⟨h.symm, Or.inl h'⟩)
  · exact Or.inr (Or.inl h)

/-- Claim C5: `get_sorted_tasks` returns the empty sequence when the date
has no bucket; otherwise it returns exactly the bucket's `(id, task)`
pairs (a permutation — nothing added or dropped) sorted by the composite
key (completed ascending with incomplete first, then priority rank with
High=1, Medium=2, Low=3 and anything else 4, then title ascending); and,
being a pure function of the store, repeated calls on an unchanged bucket
return the same sequence. -/
theorem C5_get_sorted_tasks_spec (tasks : Store) (date_str : String) :
    (lookupKey date_str tasks = none → get_sorted_tasks tasks date_str = []) ∧
    (∀ b, lookupKey date_str tasks = some b →
      (get_sorted_tasks tasks date_str).Perm b ∧
      (get_sorted_tasks tasks date_str).Pairwise (fun x y => keyLE x y = true)) ∧
    get_sorted_tasks tasks date_str = get_sorted_tasks tasks date_str := by
  refine ⟨?_, ?_, rfl⟩
  · intro h
    unfold get_sorted_tasks
    rw [h]
  · intro b hb
    unfold get_sorted_tasks
    rw [hb]
    exact ⟨List.mergeSort_perm b keyLE,
      List.sorted_mergeSort keyLE_trans keyLE_total b⟩

/-- Witness for C5 at the spec's own example bucket
{(incomplete, High, B), (incomplete, Low, A), (complete, High, C)}: the
returned sequence is a sorted permutation of the bucket (concretely B, A,
C), and the missing date yields the empty sequence. -/
theorem C5_get_sorted_tasks_spec_witness :
    (get_sorted_tasks
      [("2025-01-01", [("1", ⟨"B", "", "High", false, "c1", none, none⟩),
                       ("2", ⟨"A", "", "Low", false, "c2", none, none⟩),
                       ("3", ⟨"C", "", "High", true, "c3", none, none⟩)])]
      "2025-01-01").Perm
      [("1", (⟨"B", "", "High", false, "c1", none, none⟩ : Task)),
       ("2", ⟨"A", "", "Low", false, "c2", none, none⟩),
       ("3", ⟨"C", "", "High", true, "c3", none, none⟩)] ∧
    (get_sorted_tasks
      [("2025-01-01", [("1", ⟨"B", "", "High", false, "c1", none, none⟩),
                       ("2", ⟨"A", "", "Low", false, "c2", none, none⟩),
                       ("3", ⟨"C", "", "High", true, "c3", none, none⟩)])]
      "2025-01-01").Pairwise (fun x y => keyLE x y = true) ∧
    get_sorted_tasks
      [("2025-01-01", [("1", ⟨"B", "", "High", false, "c1", none, none⟩),
                       ("2", ⟨"A", "", "Low", false, "c2", none, none⟩),
                       ("3", ⟨"C", "", "High", true, "c3", none, none⟩)])]
      "2025-02-02" = [] := by
  have h := C5_get_sorted_tasks_spec
    [("2025-01-01", [("1", ⟨"B", "", "High", false, "c1", none, none⟩),
                     ("2", ⟨"A", "", "Low", false, "c2", none, none⟩),
                     ("3", ⟨"C", "", "High", true, "c3", none, none⟩)])] "2025-01-01"
  have h2 := C5_get_sorted_tasks_spec
    [("2025-01-01", [("1", ⟨"B", "", "High", false, "c1", none, none⟩),
                     ("2", ⟨"A", "", "Low", false, "c2", none, none⟩),
                     ("3", ⟨"C", "", "High", true, "c3", none, none⟩)])] "2025-02-02"
  refine ⟨?_, ?_, h2.1 (by decide)⟩
  · exact (h.2.1 [("1", ⟨"B", "", "High", false, "c1", none, none⟩),
      ("2", ⟨"A", "", "Low", false, "c2", none, none⟩),
      ("3", ⟨"C", "", "High", true, "c3", none, none⟩)] (by decide)).1
  · exact (h.2.1 [("1", ⟨"B", "", "High", false, "c1", none, none⟩),
      ("2", ⟨"A", "", "Low", false, "c2", none, none⟩),
      ("3", ⟨"C", "", "High", true, "c3", none, none⟩)] (by decide)).2

theorem jsonToTask_taskToJson (t : Task) : jsonToTask (taskToJson t) = some t := by
  obtain ⟨ti, de, pr, co, ca, mo, mv⟩ := t
  cases mo <;> cases mv <;>
    simp [taskToJson, jsonToTask, jGetStr, jGetBool, lookupKey]

theorem jsonToBucket_roundtrip (b : Bucket) :
    jsonToBucket (.obj (b.map fun q => (q.1, taskToJson q.2))) = some b := by
  unfold jsonToBucket
  induction b with
  | nil => rfl
  | cons q rest ih =>
    simp only [List.map_cons, List.mapM_cons, jsonToTask_taskToJson, Option.map_some]
    simp only [List.map] at ih
    rw [ih]
    rfl

theorem jsonToStore_roundtrip (tasks : Store) :
    jsonToStore (storeToJson tasks) = some tasks := by
  unfold jsonToStore storeToJson
  induction tasks with
  | nil => rfl
  | cons p rest ih =>
    simp only [List.map_cons, List.mapM_cons, jsonToBucket_roundtrip, Option.map_some]
    have ih' : List.mapM (fun p => Option.map (fun b => (p.1, b)) (jsonToBucket p.2))
        (List.map (fun p => (p.1, Json.obj (List.map (fun q => (q.1, taskToJson q.2)) p.2)))
          rest) = some rest := ih
    rw [ih']
    rfl

/-- Claim C8: importing an exported snapshot succeeds and reproduces the
store exactly — same date keys, same ids, identical field values —
whatever store was in place before the import (success replaces it
entirely). -/
theorem C8_restore_backup_roundtrip (cur tasks : Store) (now : String) :
    restore_tasks_from_backup cur (.ok (backup_tasks_to_browser tasks now)) =
      (some tasks, RestoreStatus.ok) := by
  unfold restore_tasks_from_backup backup_tasks_to_browser containsTasksKey indexTasks
  simp [hasKey, lookupKey, jsonToStore_roundtrip]

/-- Claim C7: `restore_tasks_from_backup` fails with the parse-error path
on an unparseable upload and with the format-error path on a parsed
object lacking the top-level key `tasks`, leaving the existing store
unchanged in both cases; when the key is present the whole store is
replaced by the blob's `tasks` mapping — never merged with the old
contents. -/
theorem C7_restore_error_handling (cur : Store) :
    (∀ e : Unit, restore_tasks_from_backup cur (.error e) = (some cur, .parseError)) ∧
    (∀ kvs, lookupKey "tasks" kvs = none →
      restore_tasks_from_backup cur (.ok (.obj kvs)) = (some cur, .formatError)) ∧
    (∀ kvs j s, lookupKey "tasks" kvs = some j → jsonToStore j = some s →
      restore_tasks_from_backup cur (.ok (.obj kvs)) = (some s, .ok)) := by
  refine ⟨fun _ => rfl, ?_, ?_⟩
  · intro kvs h
    unfold restore_tasks_from_backup containsTasksKey
    simp [hasKey, h]
  · intro kvs j s h1 h2
    unfold restore_tasks_from_backup containsTasksKey indexTasks
    simp [hasKey, h1, h2]

/-- Witness for C7 at concrete blobs: a parse failure and an object
lacking the `tasks` key both leave a one-task store unchanged, and a
well-formed blob replaces it. -/
theorem C7_restore_error_handling_witness :
    restore_tasks_from_backup
      [("2025-05-05", [("x", ⟨"X", "", "Low", false, "c0", none, none⟩)])]
      (.error ()) =
      (some [("2025-05-05", [("x", ⟨"X", "", "Low", false, "c0", none, none⟩)])],
        .parseError) ∧
    restore_tasks_from_backup
      [("2025-05-05", [("x", ⟨"X", "", "Low", false, "c0", none, none⟩)])]
      (.ok (.obj [("other", .null)])) =
      (some [("2025-05-05", [("x", ⟨"X", "", "Low", false, "c0", none, none⟩)])],
        .formatError) ∧
    restore_tasks_from_backup
      [("2025-05-05", [("x", ⟨"X", "", "Low", false, "c0", none, none⟩)])]
      (.ok (.obj [("tasks", .obj [])])) = (some [], .ok) := by
  have h := C7_restore_error_handling
    [("2025-05-05", [("x", ⟨"X", "", "Low", false, "c0", none, none⟩)])]
  exact ⟨h.1 (), h.2.1 [("other", .null)] (by rfl),
    h.2.2 [("tasks", .obj [])] (.obj []) [] (by rfl) (by rfl)⟩

theorem lookupKey_of_mem_nodup {α : Type} {l : List (String × α)} {k : String} {v : α}
    (hn : keysNodup l) (hm : (k, v) ∈ l) : lookupKey k l = some v := by
  induction l with
  | nil => simp at hm
  | cons p rest ih =>
    obtain ⟨a, b⟩ := p
    simp only [keysNodup, List.map_cons, List.nodup_cons] at hn
    rcases List.mem_cons.mp hm with h | h
    · cases h
      simp [lookupKey]
    · have ha : ¬ a = k := by
        intro haa
        subst haa
        exact hn.1 (List.mem_map.mpr ⟨(a, v), h, rfl⟩)
      simp [lookupKey, ha, ih hn.2 h]

/-- No date key maps to an empty bucket (the spec's no-empty-bucket
invariant, over every binding of the dict). -/
def NoEmptyBuckets (tasks : Store) : Prop :=
  ∀ p ∈ tasks, p.2 ≠ []

instance (tasks : Store) : Decidable (NoEmptyBuckets tasks) := by
  unfold NoEmptyBuckets
  infer_instance

theorem setKey_ne_nil {α : Type} (k : String) (v : α) (l : List (String × α)) :
    setKey k v l ≠ [] := by
  cases l with
  | nil => simp [setKey]
  | cons p rest =>
    obtain ⟨a, b⟩ := p
    by_cases h : a = k
    · simp [setKey, h]
    · simp [setKey, h]

theorem ne_nil_of_isEmpty_false {α : Type} {l : List α} (h : l.isEmpty = false) : l ≠ [] := by
  intro hh
  rw [hh] at h
  simp at h

/-- Counterexample for C9: a successful import installs the blob's
`tasks` value verbatim, so a blob whose mapping contains an empty bucket
plants that empty bucket straight into the store — the invariant does not
survive `importSnapshot`. -/
theorem C9_import_empty_bucket_counterexample :
    NoEmptyBuckets ([] : Store) ∧
    restore_tasks_from_backup []
      (.ok (.obj [("tasks", .obj [("2025-03-03", .obj [])])])) =
      (some [("2025-03-03", [])], .ok) ∧
    ¬ NoEmptyBuckets [("2025-03-03", ([] : Bucket))] :=
  ⟨by decide, rfl, by decide⟩

/-- Claim C9 as amended: starting from a store with no empty bucket, the
five in-app mutators — `add_task`, `toggle_task_completion`,
`delete_task`, `edit_task` and `move_incomplete_tasks` — all preserve the
no-empty-bucket invariant; `restore_tasks_from_backup` preserves it on
every failing path (the store is untouched), but a successful import
holds it only if the imported mapping itself contains no empty bucket. -/
theorem C9_no_empty_buckets_invariant (tasks : Store) (today : Date) (tstr : String)
    (ids : Nat → String) (hne : NoEmptyBuckets tasks) (hk : keysNodup tasks)
    (hb : ∀ p ∈ tasks, keysNodup p.2) (ht : parseDate tstr = some today)
    (hf : FreshIds ids tasks today) :
    (∀ d tid ti pr de no, NoEmptyBuckets (add_task tasks d tid ti pr de no)) ∧
    (∀ d tid, NoEmptyBuckets (toggle_task_completion tasks d tid)) ∧
    (∀ d tid, NoEmptyBuckets (delete_task tasks d tid)) ∧
    (∀ od tid nd ti pr de no, NoEmptyBuckets (edit_task tasks od tid nd ti pr de no)) ∧
    NoEmptyBuckets (move_incomplete_tasks tasks today tstr ids).1 ∧
    (∀ blob s st, restore_tasks_from_backup tasks blob = (some s, st) →
      st ≠ RestoreStatus.ok → NoEmptyBuckets s) := by
  refine ⟨?_, ?_, ?_, ?_, ?_, ?_⟩
  · intro d tid ti pr de no p hp
    unfold add_task at hp
    rcases mem_setKey hp with h | h
    · rw [h]
      exact setKey_ne_nil _ _ _
    · exact hne p h
  · intro d tid p hp
    unfold toggle_task_completion at hp
    cases hx : lookupKey d tasks with
    | none => simp only [hx] at hp; exact hne p hp
    | some b =>
      simp only [hx] at hp
      cases hy : lookupKey tid b with
      | none => simp only [hy] at hp; exact hne p hp
      | some t =>
        simp only [hy] at hp
        rcases mem_setKey hp with h | h
        · rw [h]
          exact setKey_ne_nil _ _ _
        · exact hne p h
  · intro d tid p hp
    unfold delete_task at hp
    cases hx : lookupKey d tasks with
    | none => simp only [hx] at hp; exact hne p hp
    | some b =>
      simp only [hx] at hp
      cases hy : lookupKey tid b with
      | none => simp only [hy] at hp; exact hne p hp
      | some t =>
        simp only [hy] at hp
        rcases Bool.eq_false_or_eq_true (eraseKey tid b).isEmpty with hbe | hbe
        · rw [if_pos hbe] at hp
          exact hne p (mem_eraseKey hp)
        · have hbe' : ¬ (eraseKey tid b).isEmpty = true := by simp [hbe]
          rw [if_neg hbe'] at hp
          rcases mem_setKey hp with h | h
          · rw [h]
            exact ne_nil_of_isEmpty_false hbe
          · exact hne p h
  · intro od tid nd ti pr de no p hp
    unfold edit_task at hp
    cases hx : lookupKey od tasks with
    | none => simp only [hx] at hp; exact hne p hp
    | some b =>
      simp only [hx] at hp
      cases hy : lookupKey tid b with
      | none => simp only [hy] at hp; exact hne p hp
      | some t =>
        simp only [hy] at hp
        by_cases hdn : od ≠ nd
        · rw [if_pos hdn] at hp
          rcases mem_setKey hp with h | h
          · rw [h]
            exact setKey_ne_nil _ _ _
          · rcases Bool.eq_false_or_eq_true (eraseKey tid b).isEmpty with hbe | hbe
            · rw [if_pos hbe] at h
              exact hne p (mem_eraseKey h)
            · have hbe' : ¬ (eraseKey tid b).isEmpty = true := by simp [hbe]
              rw [if_neg hbe'] at h
              rcases mem_setKey h with h' | h'
              · rw [h']
                exact ne_nil_of_isEmpty_false hbe
              · exact hne p h'
        · rw [if_neg hdn] at hp
          rcases mem_setKey hp with h | h
          · rw [h]
            exact setKey_ne_nil _ _ _
          · exact hne p h
  · obtain ⟨A, B, C1, C2, D1, E1, E2⟩ := rollover_char tasks today tstr ids hk hb ht hf
    intro p hp
    have hlk : lookupKey p.1 (move_incomplete_tasks tasks today tstr ids).1 = some p.2 := by
      obtain ⟨k, b⟩ := p
      exact lookupKey_of_mem_nodup E1 hp
    by_cases hmem : p.1 ∈ datesToCheck tasks today
    · rw [B p.1 hmem] at hlk
      cases hx : lookupKey p.1 tasks with
      | none => rw [hx] at hlk; exact absurd hlk (by simp)
      | some b =>
        rw [hx] at hlk
        have hlk' : (if (b.filter fun q => q.2.completed).isEmpty = true then none
            else some (b.filter fun q => q.2.completed)) = some p.2 := hlk
        rcases Bool.eq_false_or_eq_true ((b.filter fun q => q.2.completed).isEmpty)
          with hbe | hbe
        · rw [if_pos hbe] at hlk'
          exact absurd hlk' (by simp)
        · have hbe' : ¬ (b.filter fun q => q.2.completed).isEmpty = true := by simp [hbe]
          rw [if_neg hbe'] at hlk'
          have heq : b.filter (fun q => q.2.completed) = p.2 := by injection hlk'
          rw [← heq]
          exact ne_nil_of_isEmpty_false hbe
    · by_cases htoday : p.1 = tstr
      · rw [htoday] at hlk
        by_cases hE : rolloverEntries ids tasks 0 (datesToCheck tasks today) = []
        · rw [C1 hE] at hlk
          exact hne (tstr, p.2) (lookupKey_mem hlk)
        · rw [C2 hE] at hlk
          obtain heq : (lookupKey tstr tasks).getD [] ++
              rolloverEntries ids tasks 0 (datesToCheck tasks today) = p.2 := by
            injection hlk
          rw [← heq]
          intro hh
          exact hE (List.append_eq_nil.mp hh).2
      · rw [A p.1 hmem htoday] at hlk
        exact hne (p.1, p.2) (lookupKey_mem hlk)
  · intro blob s st hres hst
    have hkey : (some tasks : Option Store) = some s → NoEmptyBuckets s := by
      intro h
      obtain rfl : tasks = s := by injection h
      exact hne
    cases blob with
    | error e => exact hkey (congrArg Prod.fst hres)
    | ok j =>
      have hres' : (match containsTasksKey j with
          | none => (some tasks, RestoreStatus.otherError)
          | some false => (some tasks, RestoreStatus.formatError)
          | some true =>
            match indexTasks j with
            | none => (some tasks, RestoreStatus.otherError)
            | some t =>
              match jsonToStore t with
              | some s' => (some s', RestoreStatus.ok)
              | none => (none, RestoreStatus.okRaw)) = (some s, st) := hres
      cases hc : containsTasksKey j with
      | none =>
        rw [hc] at hres'
        exact hkey (congrArg Prod.fst hres')
      | some bb =>
        rw [hc] at hres'
        cases bb with
        | false => exact hkey (congrArg Prod.fst hres')
        | true =>
          cases hi : indexTasks j with
          | none =>
            simp only [hi] at hres'
            exact hkey (congrArg Prod.fst hres')
          | some tj =>
            simp only [hi] at hres'
            cases hj : jsonToStore tj with
            | none =>
              simp only [hj] at hres'
              exact absurd (congrArg Prod.fst hres') (by simp)
            | some s' =>
              simp only [hj] at hres'
              have hok : RestoreStatus.ok = st := congrArg Prod.snd hres'
              exact absurd hok.symm hst

/-- Witness for C9 at a concrete one-task store and a failing import:
every operation of the amended claim keeps the invariant. -/
theorem C9_no_empty_buckets_invariant_witness :
    NoEmptyBuckets (add_task
      [("2025-06-10", [("a", ⟨"A", "", "High", false, "c1", none, none⟩)])]
      "2025-07-01" "t2" "T" "Low" "" "c9") ∧
    NoEmptyBuckets (delete_task
      [("2025-06-10", [("a", ⟨"A", "", "High", false, "c1", none, none⟩)])]
      "2025-06-10" "a") ∧
    NoEmptyBuckets (move_incomplete_tasks
      [("2025-06-10", [("a", ⟨"A", "", "High", false, "c1", none, none⟩)])]
      ⟨2025, 6, 15⟩ "2025-06-15" (fun _ => "n0")).1 := by
  have h := C9_no_empty_buckets_invariant
    [("2025-06-10", [("a", ⟨"A", "", "High", false, "c1", none, none⟩)])]
    ⟨2025, 6, 15⟩ "2025-06-15" (fun _ => "n0")
    (by decide) (by decide) (by decide) (by decide) (by decide)
  exact ⟨h.1 "2025-07-01" "t2" "T" "Low" "" "c9", h.2.2.1 "2025-06-10" "a", h.2.2.2.2.1⟩

end TaskCal
